import Mathlib

/-
Verification of the dependency-graph core of graph_wiz.py: the static graph
loader, the depth-first walker with cycle detection and substring filtering,
the reverse-dependency index, and the dot formatter.  Strings are modelled as
lists of characters, Python sets as duplicate-free lists, Python dicts as
association lists, and the recursive traversals as fuel-indexed functions
together with theorems showing that the fuel chosen by the top-level entry
points is always sufficient.
-/

namespace GraphWiz

/-- Nodes are package names, modelled as lists of characters. -/
abbrev Node := List Char

/-- Directed dependency edge, an ordered pair of nodes. -/
abbrev Edge := Node × Node

/-- Adjacency map, an association list from a node to its dependency list. -/
abbrev Graph := List (Node × List Node)

/-- Lexicographic comparison of names by character code, as Python compares strings. -/
def strLe : Node → Node → Bool
  | [], _ => true
  | _ :: _, [] => false
  | x :: xs, y :: ys => if x = y then strLe xs ys else decide (x < y)

/-- Lexicographic comparison of edges as pairs, as Python compares tuples. -/
def edgeLe (a b : Edge) : Bool :=
  if a.1 = b.1 then strLe a.2 b.2 else strLe a.1 b.1

/-- Characters removed by Python's str.strip and matched by the regex class \s. -/
def isPySpace (c : Char) : Bool :=
  c = ' ' || c = '\t' || c = '\n' || c = '\r' || c = '\x0b' || c = '\x0c'

/-- Python str.strip: removes leading and trailing whitespace. -/
def strip (s : List Char) : List Char :=
  ((s.dropWhile isPySpace).reverse.dropWhile isPySpace).reverse

/-- Separator class of the regex [,\s]+ used to split dependency lists
(graph_wiz.py lines 288 and 293). -/
def isDelim (c : Char) : Bool := c = ',' || isPySpace c

/-- Token accumulator for splitDelim: cur holds the characters of the current
token in reverse; a separator flushes the token when it is nonempty. -/
def splitDelimAux (cur : List Char) : List Char → List (List Char)
  | [] => if cur = [] then [] else [cur.reverse]
  | c :: cs =>
    if isDelim c then (if cur = [] then [] else [cur.reverse]) ++ splitDelimAux [] cs
    else splitDelimAux (c :: cur) cs

/-- Splitting on runs of commas and whitespace with empty pieces dropped,
modelling re.split followed by the filter on p.strip() in load_test_graph:
the result is the list of maximal nonempty runs of non-separator characters. -/
def splitDelim (s : List Char) : List (List Char) := splitDelimAux [] s

/-- Splits a list at the first occurrence of a single separator character,
modelling Python's line.split(sep, 1) guarded by the test sep in line. -/
def splitOnceChar (sep : Char) : List Char → Option (List Char × List Char)
  | [] => none
  | c :: cs =>
    if c = sep then some ([], cs)
    else (splitOnceChar sep cs).map (fun p => (c :: p.1, p.2))

/-- Splits a list at the first occurrence of the two-character arrow separator,
modelling Python's line.split(arrow, 1) guarded by the test arrow in line. -/
def splitOnceArrow : List Char → Option (List Char × List Char)
  | '-' :: '>' :: rest => some ([], rest)
  | c :: cs => (splitOnceArrow cs).map (fun p => (c :: p.1, p.2))
  | [] => none

/-- Python dict assignment on an association list: replaces the binding of an
existing key in place, otherwise appends a new binding at the end. -/
def setAssoc (m : Graph) (k : Node) (v : List Node) : Graph :=
  match m with
  | [] => [(k, v)]
  | (k', v') :: rest => if k' = k then (k, v) :: rest else (k', v') :: setAssoc rest k v

/-- Processing of one line of the static graph file by load_test_graph
(graph_wiz.py lines 281-297): strip the line, skip it when blank or a comment,
otherwise split it at the first colon, else at the first arrow, else treat the
whole line as a node with no dependencies, and assign the dependency set. -/
def parseLine (g : Graph) (raw : List Char) : Graph :=
  let line := strip raw
  if line = [] then g
  else if line.head? = some '#' then g
  else
    match splitOnceChar ':' line with
    | some (l, r) => setAssoc g (strip l) ((splitDelim (strip r)).dedup)
    | none =>
      match splitOnceArrow line with
      | some (l, r) => setAssoc g (strip l) ((splitDelim (strip r)).dedup)
      | none => setAssoc g (strip line) []

/-- Static graph loader load_test_graph (graph_wiz.py lines 276-298), on the
list of lines of the file. -/
def load_test_graph (lines : List (List Char)) : Graph :=
  lines.foldl parseLine []

/-- Dictionary lookup with an empty default, modelling graph.get(u, set())
(graph_wiz.py line 318). -/
def getDeps (g : Graph) (u : Node) : List Node :=
  match g.lookup u with
  | some ds => ds
  | none => []

/-- Lexicographic order on names as a decidable relation. -/
def strLeP (a b : Node) : Prop := strLe a b = true

instance : DecidableRel strLeP := fun a b => inferInstanceAs (Decidable (strLe a b = true))

/-- Lexicographic order on edges as a decidable relation. -/
def edgeLeP (a b : Edge) : Prop := edgeLe a b = true

instance : DecidableRel edgeLeP := fun a b => inferInstanceAs (Decidable (edgeLe a b = true))

/-- Ascending sort of a list of names, modelling Python's sorted on strings. -/
def sortNodes (l : List Node) : List Node := l.insertionSort strLeP

/-- Ascending sort of a list of edges, modelling Python's sorted on tuples. -/
def sortEdges (l : List Edge) : List Edge := l.insertionSort edgeLeP

/-- Dependencies of a node as iterated by the walker: sorted(graph.get(u, set())),
the set giving duplicate removal and sorted the lexicographic order. -/
def sortedDeps (g : Graph) (u : Node) : List Node :=
  sortNodes ((getDeps g u).dedup)

/-- Substring test sub in s of Python, case sensitive. -/
def containsSub (sub s : Node) : Bool := decide (sub <:+: s)

/-- Filter test ignore_substr and ignore_substr in u of the walker: an empty
filter string is falsy in Python and disables filtering. -/
def filtered (flt u : Node) : Bool := !flt.isEmpty && containsSub flt u

/-- Insertion into a Python set modelled as a duplicate-free list. -/
def insertNew {α : Type} [DecidableEq α] (x : α) (l : List α) : List α :=
  if x ∈ l then l else l ++ [x]

/-- Python list.index: position of the first occurrence of an element. -/
def idxOf (u : Node) : List Node → Nat
  | [] => 0
  | v :: vs => if v = u then 0 else idxOf u vs + 1

/-- Mutable traversal state of build_graph_from_test: the visited set, the
current path stack, the edge set and the recorded cycles. -/
structure WalkSt where
  visited : List Node
  pathStack : List Node
  edges : List Edge
  cycles : List (List Node)
deriving Repr, DecidableEq

/-- Initial walker state. -/
def initSt : WalkSt := ⟨[], [], [], []⟩

/-- Python path_stack.pop() at the end of dfs. -/
def popTop (st : WalkSt) : WalkSt := { st with pathStack := st.pathStack.dropLast }

/-- Marking of a node as visited and pushed onto the path stack in dfs. -/
def pushNode (u : Node) (st : WalkSt) : WalkSt :=
  { st with visited := st.visited ++ [u], pathStack := st.pathStack ++ [u] }

/-- Recording of an edge in the edge set during the dependency loop of dfs. -/
def addEdge (e : Edge) (st : WalkSt) : WalkSt := { st with edges := insertNew e st.edges }

/-- Loop over the sorted dependencies of u inside dfs, the recursive descent
passed in as the function rec: each dependency matching the filter is skipped,
otherwise the edge (u, v) is added to the edge set before rec descends into v. -/
def dfsDeps (flt : Node) (rec : Node → WalkSt → WalkSt) (u : Node) : List Node → WalkSt → WalkSt
  | [], st => st
  | v :: vs, st =>
    if filtered flt v then dfsDeps flt rec u vs st
    else dfsDeps flt rec u vs (rec v (addEdge (u, v) st))

/-- Recursive dfs of build_graph_from_test (graph_wiz.py lines 307-323), with
an explicit fuel argument bounding the recursion depth: on entry the node is
dropped when it matches the filter; a node already on the path stack records a
cycle from its first occurrence with the node appended again and does not
recurse; a node already visited is skipped; otherwise the node is marked
visited, pushed, its sorted dependencies are traversed, and it is popped. -/
def dfs (g : Graph) (flt : Node) : Nat → Node → WalkSt → WalkSt
  | 0, _, st => st
  | fuel + 1, u, st =>
    if filtered flt u then st
    else if u ∈ st.pathStack then
      { st with cycles := st.cycles ++ [st.pathStack.drop (idxOf u st.pathStack) ++ [u]] }
    else if u ∈ st.visited then st
    else popTop (dfsDeps flt (dfs g flt fuel) u (sortedDeps g u) (pushNode u st))

/-- Fuel budget used by the walker entry point: more than the number of node
occurrences that can ever be visited (the start node and every dependency
occurring in the adjacency map). -/
def walkFuel (g : Graph) (start : Node) : Nat :=
  (start :: g.flatMap Prod.snd).length + 1

/-- Walker entry point build_graph_from_test (graph_wiz.py lines 300-325). -/
def build_graph_from_test (start : Node) (g : Graph) (flt : Node) : WalkSt :=
  dfs g flt (walkFuel g start) start initSt

/-- Reverse adjacency mapping, an association list from a node to the set of
nodes that depend on it directly. -/
abbrev RevMap := List (Node × List Node)

/-- Python reverse_graph.setdefault(b, set()).add(a): adds a to the entry of b,
creating the entry when absent (at the end, as dict insertion does). -/
def revAdd (m : RevMap) (b a : Node) : RevMap :=
  match m with
  | [] => [(b, [a])]
  | (k, v) :: rest => if k = b then (k, insertNew a v) :: rest else (k, v) :: revAdd rest b a

/-- Python reverse_graph.setdefault(k, set()): creates an empty entry for k
when absent. -/
def revEnsure (m : RevMap) (k : Node) : RevMap :=
  if (m.lookup k).isSome then m else m ++ [(k, [])]

/-- Construction of the reverse adjacency mapping in find_reverse_dependencies
(graph_wiz.py lines 374-380): each edge (a, b) puts a into the entry of b and
ensures a has an entry; every extra node also gets an entry. -/
def buildRev (edges : List Edge) (extra : List Node) : RevMap :=
  extra.foldl revEnsure (edges.foldl (fun m e => revEnsure (revAdd m e.2 e.1) e.1) [])

/-- Lookup in the reverse mapping with an empty default, modelling
reverse_graph.get(u, set()). -/
def assocGet (m : RevMap) (k : Node) : List Node :=
  (m.lookup k).getD []

/-- Reverse dependents of a node as iterated by the reverse dfs:
sorted(reverse_graph.get(u, set())). -/
def sortedGet (m : RevMap) (k : Node) : List Node :=
  sortNodes ((assocGet m k).dedup)

/-- Loop of the reverse dfs over the sorted reverse dependents, the recursive
descent passed in as the function rec: a node already visited is skipped,
otherwise it is added to the visited set and rec descends into it. -/
def revDfsList (rec : Node → List Node → List Node) : List Node → List Node → List Node
  | [], vis => vis
  | v :: vs, vis =>
    if v ∈ vis then revDfsList rec vs vis
    else revDfsList rec vs (rec v (vis ++ [v]))

/-- Recursive dfs of find_reverse_dependencies (graph_wiz.py lines 382-387),
with an explicit fuel argument bounding the recursion depth. -/
def revDfs (m : RevMap) : Nat → Node → List Node → List Node
  | 0, _, vis => vis
  | fuel + 1, u, vis => revDfsList (revDfs m fuel) (sortedGet m u) vis

/-- Fuel budget used by the reverse traversal: more than the number of node
occurrences in the value lists of the reverse mapping, which include every
node the reverse dfs can ever descend into. -/
def revFuel (m : RevMap) : Nat := (m.flatMap Prod.snd).length + 1

/-- Reverse dependency query find_reverse_dependencies (graph_wiz.py lines
373-390): reachability over the reverse mapping from target, with target
itself discarded from the result. -/
def find_reverse_dependencies (target : Node) (edges : List Edge) (extra : List Node) : List Node :=
  (revDfs (buildRev edges extra) (revFuel (buildRev edges extra)) target []).filter
    (fun x => decide (x ≠ target))

/-- Inner loop of the nodes_all and edges_all accumulation in main: an
unfiltered dependency v of u contributes the node v and the edge (u, v). -/
def collectInner (flt u : Node) (acc : List Node × List Edge) (v : Node) :
    List Node × List Edge :=
  if filtered flt v then acc else (insertNew v acc.1, insertNew (u, v) acc.2)

/-- Outer loop of the nodes_all and edges_all accumulation in main: an
unfiltered entry contributes its node and iterates its dependencies. -/
def collectStep (flt : Node) (acc : List Node × List Edge) (p : Node × List Node) :
    List Node × List Edge :=
  if filtered flt p.1 then acc
  else p.2.foldl (collectInner flt p.1) (insertNew p.1 acc.1, acc.2)

/-- Accumulation of nodes_all and edges_all in main for test mode
(graph_wiz.py lines 479-487): every entry of the loaded adjacency map
contributes its node and its unfiltered dependencies and edges. -/
def collectAll (g : Graph) (flt : Node) : List Node × List Edge :=
  g.foldl (collectStep flt) ([], [])

/-- Reverse dependency set reported by main in test mode (graph_wiz.py lines
495-497): find_reverse_dependencies applied to edges_all with nodes_all as
extra nodes. -/
def mainReverseTest (g : Graph) (flt : Node) (target : Node) : List Node :=
  find_reverse_dependencies target (collectAll g flt).2 (collectAll g flt).1

/-- First header line of generate_dot. -/
def dotHeader1 : List Char := "digraph G \x7b".toList

/-- Second header line of generate_dot, the default node attributes. -/
def dotHeader2 : List Char := "  node [shape=box, style=filled, color=lightgrey];".toList

/-- Declaration line of the visually distinguished start node in generate_dot. -/
def dotStartLine (n : Node) : List Char :=
  "  \"".toList ++ n ++ "\" [color=lightblue, style=filled];".toList

/-- Declaration line of an ordinary node in generate_dot. -/
def dotNodeLine (n : Node) : List Char := "  \"".toList ++ n ++ "\";".toList

/-- Declaration line of an edge in generate_dot. -/
def dotEdgeLine (e : Edge) : List Char :=
  "  \"".toList ++ e.1 ++ "\" -> \"".toList ++ e.2 ++ "\";".toList

/-- Closing line of generate_dot. -/
def dotFooter : List Char := "\x7d".toList

/-- Order in which generate_dot declares nodes: the start node first when it is
in the node set, then the remaining nodes in ascending lexicographic order. -/
def dotNodeSeq (nodes : List Node) (start : Node) : List Node :=
  (if start ∈ nodes then [start] else []) ++
    (sortNodes nodes.dedup).filter (fun n => decide (n ≠ start))

/-- Order in which generate_dot declares edges: ascending lexicographic order
of the pairs. -/
def dotEdgeSeq (edges : List Edge) : List Edge := sortEdges edges.dedup

/-- Formatter generate_dot (graph_wiz.py lines 406-419), as the list of lines
it assembles: the headers, one declaration per node with the start node first
and styled, one declaration per edge in sorted order, and the closing line. -/
def generate_dot (nodes : List Node) (edges : List Edge) (start : Node) : List (List Char) :=
  [dotHeader1, dotHeader2] ++
    (dotNodeSeq nodes start).map (fun n => if n = start then dotStartLine n else dotNodeLine n) ++
    (dotEdgeSeq edges).map dotEdgeLine ++
    [dotFooter]

/-- Joined text of generate_dot, the lines separated by newlines. -/
def generate_dot_text (nodes : List Node) (edges : List Edge) (start : Node) : List Char :=
  List.intercalate ['\n'] (generate_dot nodes edges start)

/-- One dependency step of the adjacency map: b is a direct dependency of a. -/
def step (g : Graph) (a b : Node) : Prop := b ∈ getDeps g a

/-- Reachability by following dependency edges, the reflexive transitive
closure of the dependency step. -/
def Reachable (g : Graph) (a b : Node) : Prop := Relation.ReflTransGen (step g) a b

/-- Acyclicity of an adjacency map: no node reaches itself in one or more
dependency steps. -/
def Acyclic (g : Graph) : Prop := ∀ x, ¬ Relation.TransGen (step g) x x

section BasicLemmas

variable {α : Type} [DecidableEq α]

theorem mem_insertNew {x a : α} {l : List α} : x ∈ insertNew a l ↔ x = a ∨ x ∈ l := by
  unfold insertNew
  split
  · constructor
    · exact fun h => Or.inr h
    · rintro (rfl | h) <;> assumption
  · simp [or_comm]

theorem self_mem_insertNew {a : α} {l : List α} : a ∈ insertNew a l :=
  mem_insertNew.mpr (Or.inl rfl)

theorem subset_insertNew {a : α} {l : List α} : l ⊆ insertNew a l := by
  intro x hx
  exact mem_insertNew.mpr (Or.inr hx)

theorem insertNew_extends {a : α} {l : List α} : ∃ t, insertNew a l = l ++ t := by
  unfold insertNew
  split
  · exact ⟨[], by simp⟩
  · exact ⟨[a], rfl⟩

theorem nodup_insertNew {a : α} {l : List α} (h : l.Nodup) : (insertNew a l).Nodup := by
  unfold insertNew
  split
  · exact h
  · simpa [List.nodup_append] using ⟨h, by assumption⟩

theorem mem_sortNodes {x : Node} {l : List Node} : x ∈ sortNodes l ↔ x ∈ l :=
  List.mem_insertionSort strLeP

theorem mem_sortEdges {x : Edge} {l : List Edge} : x ∈ sortEdges l ↔ x ∈ l :=
  List.mem_insertionSort edgeLeP

theorem mem_sortedDeps {g : Graph} {u v : Node} : v ∈ sortedDeps g u ↔ v ∈ getDeps g u := by
  unfold sortedDeps
  rw [mem_sortNodes, List.mem_dedup]

theorem lookup_mem {γ β : Type} [BEq γ] [LawfulBEq γ] {g : List (γ × β)} {u : γ} {ds : β}
    (h : g.lookup u = some ds) : (u, ds) ∈ g := by
  induction g with
  | nil => simp [List.lookup] at h
  | cons p rest ih =>
    obtain ⟨k, b⟩ := p
    rw [List.lookup_cons] at h
    cases hbeq : (u == k) with
    | true =>
      rw [hbeq] at h
      simp only at h
      cases h
      have : u = k := eq_of_beq hbeq
      subst this
      exact List.mem_cons_self _ _
    | false =>
      rw [hbeq] at h
      simp only at h
      exact List.mem_cons_of_mem _ (ih h)

theorem lookup_eq_none_of_not_mem_keys {γ β : Type} [BEq γ] [LawfulBEq γ] {g : List (γ × β)} {u : γ}
    (h : u ∉ g.map Prod.fst) : g.lookup u = none := by
  induction g with
  | nil => rfl
  | cons p rest ih =>
    obtain ⟨k, b⟩ := p
    simp only [List.map_cons, List.mem_cons] at h
    push_neg at h
    rw [List.lookup_cons]
    have : (u == k) = false := beq_false_of_ne h.1
    rw [this]
    simp only
    exact ih h.2

theorem getDeps_sub_flatMap {g : Graph} {u v : Node} (h : v ∈ getDeps g u) :
    v ∈ g.flatMap Prod.snd := by
  unfold getDeps at h
  rcases hl : g.lookup u with _ | ds
  · rw [hl] at h
    simp at h
  · rw [hl] at h
    have hm := lookup_mem hl
    simp only [List.mem_flatMap]
    exact ⟨(u, ds), hm, h⟩

end BasicLemmas

section WalkerStructure

variable {g : Graph} {flt : Node}

/-- Structural relationship between the state before and after a traversal
step: the visited set, edge set and cycle list only grow at the end, and the
path stack is restored. -/
def Ext (st st' : WalkSt) : Prop :=
  (∃ t, st'.visited = st.visited ++ t) ∧ (∃ t, st'.edges = st.edges ++ t) ∧
    (∃ t, st'.cycles = st.cycles ++ t) ∧ st'.pathStack = st.pathStack

theorem Ext.refl (st : WalkSt) : Ext st st :=
  ⟨⟨[], by simp⟩, ⟨[], by simp⟩, ⟨[], by simp⟩, rfl⟩

theorem Ext.trans {s1 s2 s3 : WalkSt} (h1 : Ext s1 s2) (h2 : Ext s2 s3) : Ext s1 s3 := by
  obtain ⟨⟨t1, e1⟩, ⟨t2, e2⟩, ⟨t3, e3⟩, e4⟩ := h1
  obtain ⟨⟨r1, f1⟩, ⟨r2, f2⟩, ⟨r3, f3⟩, f4⟩ := h2
  exact ⟨⟨t1 ++ r1, by rw [f1, e1, List.append_assoc]⟩,
    ⟨t2 ++ r2, by rw [f2, e2, List.append_assoc]⟩,
    ⟨t3 ++ r3, by rw [f3, e3, List.append_assoc]⟩, f4.trans e4⟩

theorem Ext.visited_subset {s1 s2 : WalkSt} (h : Ext s1 s2) : s1.visited ⊆ s2.visited := by
  obtain ⟨⟨t, e⟩, _, _, _⟩ := h
  rw [e]
  exact List.subset_append_left _ _

theorem Ext.edges_subset {s1 s2 : WalkSt} (h : Ext s1 s2) : s1.edges ⊆ s2.edges := by
  obtain ⟨_, ⟨t, e⟩, _, _⟩ := h
  rw [e]
  exact List.subset_append_left _ _

theorem ext_dfsDeps (flt : Node) (rec : Node → WalkSt → WalkSt)
    (hrec : ∀ v s, Ext s (rec v s)) (u : Node) :
    ∀ (l : List Node) (st : WalkSt), Ext st (dfsDeps flt rec u l st) := by
  intro l
  induction l with
  | nil => intro st; exact Ext.refl st
  | cons v vs ih =>
    intro st
    rw [dfsDeps]
    split
    · exact ih st
    · refine Ext.trans (Ext.trans ?_ (hrec v _)) (ih _)
      obtain ⟨t, ht⟩ := insertNew_extends (a := (u, v)) (l := st.edges)
      exact ⟨⟨[], by simp [addEdge]⟩, ⟨t, by simp [addEdge, ht]⟩, ⟨[], by simp [addEdge]⟩, rfl⟩

theorem ext_addEdge (e : Edge) (st : WalkSt) : Ext st (addEdge e st) := by
  obtain ⟨t, ht⟩ := insertNew_extends (a := e) (l := st.edges)
  exact ⟨⟨[], by simp [addEdge]⟩, ⟨t, by simp [addEdge, ht]⟩, ⟨[], by simp [addEdge]⟩, rfl⟩

theorem ext_dfs (g : Graph) (flt : Node) :
    ∀ (fuel : Nat) (u : Node) (st : WalkSt), Ext st (dfs g flt fuel u st) := by
  intro fuel
  induction fuel with
  | zero => intro u st; exact Ext.refl st
  | succ fuel ih =>
    intro u st
    rw [dfs]
    split
    · exact Ext.refl st
    · split
      · exact ⟨⟨[], by simp⟩, ⟨[], by simp⟩, ⟨_, rfl⟩, rfl⟩
      · split
        · exact Ext.refl st
        · have h2 := ext_dfsDeps flt (dfs g flt fuel) ih u (sortedDeps g u)
            (pushNode u st)
          obtain ⟨⟨t1, e1⟩, ⟨t2, e2⟩, ⟨t3, e3⟩, e4⟩ := h2
          refine ⟨⟨[u] ++ t1, by simp only [popTop, pushNode] at e1 ⊢; rw [e1, List.append_assoc]⟩,
            ⟨t2, e2⟩, ⟨t3, e3⟩, ?_⟩
          simp only [popTop, pushNode] at e4 ⊢
          rw [e4, List.dropLast_concat]

theorem dfs_pathStack (fuel : Nat) (u : Node) (st : WalkSt) :
    (dfs g flt fuel u st).pathStack = st.pathStack :=
  (ext_dfs g flt fuel u st).2.2.2

end WalkerStructure

section WalkerInvariants

variable {g : Graph} {flt : Node}

/-- Well-formed recorded cycle: some node, an interior segment, and the same
node appended again at the end. -/
def CycleWF (c : List Node) : Prop := ∃ x t, c = x :: (t ++ [x])

theorem drop_idxOf {u : Node} : ∀ {p : List Node}, u ∈ p → ∃ t, p.drop (idxOf u p) = u :: t := by
  intro p
  induction p with
  | nil => intro h; cases h
  | cons v vs ih =>
    intro h
    by_cases hv : v = u
    · subst hv
      exact ⟨vs, by simp [idxOf]⟩
    · rcases List.mem_cons.mp h with rfl | h2
      · exact absurd rfl hv
      · obtain ⟨t, ht⟩ := ih h2
        exact ⟨t, by simpa [idxOf, hv] using ht⟩

theorem cycle_new_WF {u : Node} {p : List Node} (h : u ∈ p) :
    CycleWF (p.drop (idxOf u p) ++ [u]) := by
  obtain ⟨t, ht⟩ := drop_idxOf h
  exact ⟨u, t, by rw [ht]; simp⟩

/-- Invariant that every recorded cycle is well formed. -/
def CyclesWF (st : WalkSt) : Prop := ∀ c ∈ st.cycles, CycleWF c

theorem cyclesWF_dfsDeps (rec : Node → WalkSt → WalkSt)
    (hrec : ∀ v s, CyclesWF s → CyclesWF (rec v s)) (u : Node) :
    ∀ (l : List Node) (st : WalkSt), CyclesWF st → CyclesWF (dfsDeps flt rec u l st) := by
  intro l
  induction l with
  | nil => intro st h; exact h
  | cons v vs ih =>
    intro st h
    rw [dfsDeps]
    split
    · exact ih st h
    · exact ih _ (hrec v _ (fun c hc => h c hc))

theorem cyclesWF_dfs : ∀ (fuel : Nat) (u : Node) (st : WalkSt),
    CyclesWF st → CyclesWF (dfs g flt fuel u st) := by
  intro fuel
  induction fuel with
  | zero => intro u st h; exact h
  | succ fuel ih =>
    intro u st h
    rw [dfs]
    split
    · exact h
    · split
      · intro c hc
        simp only [List.mem_append, List.mem_singleton] at hc
        rcases hc with hc | rfl
        · exact h c hc
        · exact cycle_new_WF (by assumption)
      · split
        · exact h
        · intro c hc
          simp only [popTop] at hc
          exact cyclesWF_dfsDeps (dfs g flt fuel) ih u (sortedDeps g u) (pushNode u st)
            (fun c' hc' => h c' hc') c hc

theorem dfs_back_edge (fuel : Nat) (u : Node) (st : WalkSt)
    (hf : filtered flt u = false) (hp : u ∈ st.pathStack) :
    dfs g flt (fuel + 1) u st =
      { st with cycles := st.cycles ++ [st.pathStack.drop (idxOf u st.pathStack) ++ [u]] } := by
  rw [dfs, if_neg (by simp [hf]), if_pos hp]

/-- Invariant that no visited node and no edge endpoint contains the filter
substring. -/
def CleanSt (flt : Node) (st : WalkSt) : Prop :=
  (∀ n ∈ st.visited, containsSub flt n = false) ∧
    (∀ e ∈ st.edges, containsSub flt e.1 = false ∧ containsSub flt e.2 = false)

theorem filtered_eq_containsSub (hne : flt ≠ []) (u : Node) :
    filtered flt u = containsSub flt u := by
  unfold filtered
  cases flt with
  | nil => exact absurd rfl hne
  | cons c cs => simp [List.isEmpty]

theorem cleanSt_dfsDeps (hne : flt ≠ []) (rec : Node → WalkSt → WalkSt)
    (hrec : ∀ v s, CleanSt flt s → CleanSt flt (rec v s)) (u : Node)
    (hu : containsSub flt u = false) :
    ∀ (l : List Node) (st : WalkSt), CleanSt flt st → CleanSt flt (dfsDeps flt rec u l st) := by
  intro l
  induction l with
  | nil => intro st h; exact h
  | cons v vs ih =>
    intro st h
    rw [dfsDeps]
    split
    · exact ih st h
    · refine ih _ (hrec v _ ⟨h.1, ?_⟩)
      intro e he
      simp only [addEdge] at he
      rcases mem_insertNew.mp he with rfl | he2
      · refine ⟨hu, ?_⟩
        rw [← filtered_eq_containsSub hne]
        simpa using (by assumption : ¬ filtered flt v = true)
      · exact h.2 e he2

theorem cleanSt_dfs (hne : flt ≠ []) : ∀ (fuel : Nat) (u : Node) (st : WalkSt),
    CleanSt flt st → CleanSt flt (dfs g flt fuel u st) := by
  intro fuel
  induction fuel with
  | zero => intro u st h; exact h
  | succ fuel ih =>
    intro u st h
    rw [dfs]
    split
    · exact h
    · split
      · exact ⟨h.1, h.2⟩
      · split
        · exact h
        · have hu : containsSub flt u = false := by
            rw [← filtered_eq_containsSub hne]
            simpa using (by assumption : ¬ filtered flt u = true)
          have hpush : CleanSt flt (pushNode u st) := by
            refine ⟨?_, h.2⟩
            intro n hn
            simp only [pushNode, List.mem_append, List.mem_singleton] at hn
            rcases hn with hn | rfl
            · exact h.1 n hn
            · exact hu
          have h2 := cleanSt_dfsDeps hne (dfs g flt fuel) ih u hu (sortedDeps g u)
            (pushNode u st) hpush
          exact ⟨h2.1, h2.2⟩

/-- Invariant that every recorded edge points from an unfiltered node to one of
its dependencies in the adjacency map, also unfiltered. -/
def EdgesProven (g : Graph) (flt : Node) (st : WalkSt) : Prop :=
  ∀ e ∈ st.edges, e.2 ∈ getDeps g e.1 ∧ filtered flt e.1 = false ∧ filtered flt e.2 = false

theorem edgesProven_dfsDeps (rec : Node → WalkSt → WalkSt)
    (hrec : ∀ v s, EdgesProven g flt s → EdgesProven g flt (rec v s)) (u : Node)
    (hu : filtered flt u = false) :
    ∀ (l : List Node) (st : WalkSt), (∀ v ∈ l, v ∈ getDeps g u) →
      EdgesProven g flt st → EdgesProven g flt (dfsDeps flt rec u l st) := by
  intro l
  induction l with
  | nil => intro st _ h; exact h
  | cons v vs ih =>
    intro st hl h
    rw [dfsDeps]
    split
    · exact ih st (fun v' hv' => hl v' (List.mem_cons_of_mem _ hv')) h
    · refine ih _ (fun v' hv' => hl v' (List.mem_cons_of_mem _ hv')) (hrec v _ ?_)
      intro e he
      simp only [addEdge] at he
      rcases mem_insertNew.mp he with rfl | he2
      · exact ⟨hl v (List.mem_cons_self _ _), hu,
          by simpa using (by assumption : ¬ filtered flt v = true)⟩
      · exact h e he2

theorem edgesProven_dfs : ∀ (fuel : Nat) (u : Node) (st : WalkSt),
    EdgesProven g flt st → EdgesProven g flt (dfs g flt fuel u st) := by
  intro fuel
  induction fuel with
  | zero => intro u st h; exact h
  | succ fuel ih =>
    intro u st h
    rw [dfs]
    split
    · exact h
    · split
      · exact fun e he => h e he
      · split
        · exact h
        · have hu : filtered flt u = false := by
            simpa using (by assumption : ¬ filtered flt u = true)
          intro e he
          simp only [popTop] at he
          exact edgesProven_dfsDeps (dfs g flt fuel) ih u hu (sortedDeps g u)
            (pushNode u st) (fun v hv => mem_sortedDeps.mp hv) (fun e' he' => h e' he') e he

end WalkerInvariants

section Soundness

variable {g : Graph} {flt : Node} {start : Node}

/-- Invariant that every visited node is reachable from the start node. -/
def VisitedReach (g : Graph) (start : Node) (st : WalkSt) : Prop :=
  ∀ w ∈ st.visited, Reachable g start w

theorem visitedReach_dfsDeps (rec : Node → WalkSt → WalkSt)
    (hrec : ∀ v s, Reachable g start v → VisitedReach g start s → VisitedReach g start (rec v s))
    (u : Node) (hu : Reachable g start u) :
    ∀ (l : List Node) (st : WalkSt), (∀ v ∈ l, v ∈ getDeps g u) →
      VisitedReach g start st → VisitedReach g start (dfsDeps flt rec u l st) := by
  intro l
  induction l with
  | nil => intro st _ h; exact h
  | cons v vs ih =>
    intro st hl h
    rw [dfsDeps]
    split
    · exact ih st (fun v' hv' => hl v' (List.mem_cons_of_mem _ hv')) h
    · refine ih _ (fun v' hv' => hl v' (List.mem_cons_of_mem _ hv')) ?_
      refine hrec v _ (hu.tail (hl v (List.mem_cons_self _ _))) ?_
      intro w hw
      exact h w hw

theorem visitedReach_dfs : ∀ (fuel : Nat) (u : Node) (st : WalkSt),
    Reachable g start u → VisitedReach g start st →
    VisitedReach g start (dfs g flt fuel u st) := by
  intro fuel
  induction fuel with
  | zero => intro u st _ h; exact h
  | succ fuel ih =>
    intro u st hu h
    rw [dfs]
    split
    · exact h
    · split
      · exact fun w hw => h w hw
      · split
        · exact h
        · intro w hw
          simp only [popTop] at hw
          refine visitedReach_dfsDeps (dfs g flt fuel) ih u hu (sortedDeps g u)
            (pushNode u st) (fun v hv => mem_sortedDeps.mp hv) ?_ w hw
          intro n hn
          simp only [pushNode, List.mem_append, List.mem_singleton] at hn
          rcases hn with hn | rfl
          · exact h n hn
          · exact hu

theorem chainPath_mem_reflTransGen {R : Node → Node → Prop} :
    ∀ {l : List Node}, List.Chain' R l → ∀ {a : Node}, a ∈ l →
      ∀ b ∈ l.getLast?, Relation.ReflTransGen R a b := by
  intro l
  induction l with
  | nil => intro _ a ha; cases ha
  | cons x rest ih =>
    intro hch a ha b hb
    cases rest with
    | nil =>
      rcases List.mem_singleton.mp ha with rfl
      simp only [List.getLast?_singleton, Option.mem_def, Option.some.injEq] at hb
      subst hb
      exact Relation.ReflTransGen.refl
    | cons y rest2 =>
      rw [List.chain'_cons] at hch
      have hb2 : b ∈ (y :: rest2).getLast? := by
        simpa [List.getLast?_cons_cons] using hb
      rcases List.mem_cons.mp ha with rfl | ha2
      · exact Relation.ReflTransGen.head hch.1
          (ih hch.2 (List.mem_cons_self _ _) b hb2)
      · exact ih hch.2 ha2 b hb2

theorem noCycles_dfsDeps (fuel : Nat)
    (IH : ∀ (u : Node) (st : WalkSt), List.Chain' (step g) st.pathStack →
      (∀ x ∈ st.pathStack.getLast?, step g x u) →
      (dfs g flt fuel u st).cycles = st.cycles)
    (u : Node) :
    ∀ (l : List Node) (st : WalkSt), List.Chain' (step g) st.pathStack →
      st.pathStack.getLast? = some u → (∀ v ∈ l, v ∈ getDeps g u) →
      (dfsDeps flt (dfs g flt fuel) u l st).cycles = st.cycles := by
  intro l
  induction l with
  | nil => intro st _ _ _; rfl
  | cons v vs ih =>
    intro st hch hlast hl
    rw [dfsDeps]
    split
    · exact ih st hch hlast (fun v' hv' => hl v' (List.mem_cons_of_mem _ hv'))
    · have hcyc : (dfs g flt fuel v (addEdge (u, v) st)).cycles = st.cycles := by
        refine IH v (addEdge (u, v) st) hch ?_
        intro x hx
        simp only [addEdge] at hx
        rw [hlast] at hx
        have hxu : x = u := by
          have := Option.mem_def.mp hx
          exact (Option.some.injEq _ _ ▸ this).symm
        subst hxu
        exact hl v (List.mem_cons_self _ _)
      have hpath : (dfs g flt fuel v (addEdge (u, v) st)).pathStack = st.pathStack :=
        dfs_pathStack fuel v (addEdge (u, v) st)
      have := ih (dfs g flt fuel v (addEdge (u, v) st))
        (by rw [hpath]; exact hch) (by rw [hpath]; exact hlast)
        (fun v' hv' => hl v' (List.mem_cons_of_mem _ hv'))
      rw [this, hcyc]

theorem noCycles_dfs (hacy : Acyclic g) : ∀ (fuel : Nat) (u : Node) (st : WalkSt),
    List.Chain' (step g) st.pathStack →
    (∀ x ∈ st.pathStack.getLast?, step g x u) →
    (dfs g flt fuel u st).cycles = st.cycles := by
  intro fuel
  induction fuel with
  | zero => intro u st _ _; rfl
  | succ fuel ih =>
    intro u st hch hlast
    rw [dfs]
    split
    · rfl
    · split
      · exfalso
        have hmem : u ∈ st.pathStack := by assumption
        have hne : st.pathStack ≠ [] := List.ne_nil_of_mem hmem
        have hlastmem : st.pathStack.getLast hne ∈ st.pathStack.getLast? := by
          rw [List.getLast?_eq_getLast _ hne]
          rfl
        have hstep : step g (st.pathStack.getLast hne) u := hlast _ hlastmem
        have hrtg : Relation.ReflTransGen (step g) u (st.pathStack.getLast hne) :=
          chainPath_mem_reflTransGen hch hmem _ hlastmem
        exact hacy u (Relation.TransGen.tail' hrtg hstep)
      · split
        · rfl
        · have hch2 : List.Chain' (step g) (pushNode u st).pathStack := by
            simp only [pushNode]
            rw [List.chain'_append]
            refine ⟨hch, List.chain'_singleton u, ?_⟩
            intro x hx y hy
            simp only [List.head?_cons, Option.mem_def, Option.some.injEq] at hy
            subst hy
            exact hlast x hx
          have hlast2 : (pushNode u st).pathStack.getLast? = some u := by
            simp only [pushNode]
            exact List.getLast?_concat _
          have := noCycles_dfsDeps fuel ih u (sortedDeps g u) (pushNode u st)
            hch2 hlast2 (fun v hv => mem_sortedDeps.mp hv)
          simp only [popTop]
          rw [this]
          rfl

end Soundness

section Deficit

variable {g : Graph} {flt start : Node}

/-- Universe of nodes the walker can ever visit: the start node and every
dependency occurring in the adjacency map. -/
def UList (g : Graph) (start : Node) : List Node := start :: g.flatMap Prod.snd

/-- Number of universe nodes not yet visited; it strictly decreases each time
the walker marks a fresh node. -/
def deficit (g : Graph) (start : Node) (st : WalkSt) : Nat :=
  ((UList g start).toFinset \ st.visited.toFinset).card

theorem deficit_mono {st st' : WalkSt} (h : st.visited ⊆ st'.visited) :
    deficit g start st' ≤ deficit g start st := by
  refine Finset.card_le_card ?_
  intro x hx
  rw [Finset.mem_sdiff, List.mem_toFinset, List.mem_toFinset] at hx ⊢
  exact ⟨hx.1, fun hc => hx.2 (h hc)⟩

theorem deficit_addEdge (e : Edge) (st : WalkSt) :
    deficit g start (addEdge e st) = deficit g start st := rfl

theorem deficit_push_lt (g : Graph) (start : Node) {u : Node} {st : WalkSt}
    (hU : u ∈ UList g start)
    (hnv : u ∉ st.visited) : deficit g start (pushNode u st) < deficit g start st := by
  refine Finset.card_lt_card ?_
  rw [Finset.ssubset_iff_of_subset]
  · refine ⟨u, ?_, ?_⟩
    · rw [Finset.mem_sdiff, List.mem_toFinset, List.mem_toFinset]
      exact ⟨hU, hnv⟩
    · rw [Finset.mem_sdiff, List.mem_toFinset, List.mem_toFinset]
      push_neg
      intro _
      simp [pushNode]
  · intro x hx
    rw [Finset.mem_sdiff, List.mem_toFinset, List.mem_toFinset] at hx ⊢
    refine ⟨hx.1, fun hc => hx.2 ?_⟩
    simp only [pushNode, List.mem_append, List.mem_singleton]
    exact Or.inl hc

theorem deficit_pos (g : Graph) (start : Node) {u : Node} {st : WalkSt}
    (hU : u ∈ UList g start)
    (hnv : u ∉ st.visited) : 1 ≤ deficit g start st := by
  refine Finset.card_pos.mpr ⟨u, ?_⟩
  rw [Finset.mem_sdiff, List.mem_toFinset, List.mem_toFinset]
  exact ⟨hU, hnv⟩

theorem deficit_init_le : deficit g start initSt ≤ (UList g start).length := by
  unfold deficit initSt
  simp only [List.toFinset_nil, Finset.sdiff_empty]
  exact List.toFinset_card_le _

end Deficit

section Master

variable {g : Graph} {flt start : Node}

/-- Full edge invariant: both endpoints of every recorded edge are visited,
and the path stack consists of visited nodes. -/
def InvFull (st : WalkSt) : Prop :=
  (∀ e ∈ st.edges, e.1 ∈ st.visited ∧ e.2 ∈ st.visited) ∧ st.pathStack ⊆ st.visited

/-- Edge invariant on entry to dfs at node u: the destination of an edge may
still be u itself, which the call is about to make visited. -/
def AlmostInv (st : WalkSt) (u : Node) : Prop :=
  (∀ e ∈ st.edges, e.1 ∈ st.visited ∧ (e.2 ∈ st.visited ∨ e.2 = u)) ∧ st.pathStack ⊆ st.visited

/-- Closure invariant: every visited node is either still on the path stack or
has all its unfiltered dependencies visited. -/
def ClosedSt (g : Graph) (flt : Node) (st : WalkSt) : Prop :=
  ∀ w ∈ st.visited, w ∈ st.pathStack ∨
    ∀ v ∈ getDeps g w, filtered flt v = true ∨ v ∈ st.visited

theorem master_dfsDeps (d fuel : Nat)
    (IH : ∀ (u : Node) (st : WalkSt), deficit g start st ≤ d → d < fuel →
      u ∈ UList g start → filtered flt u = false → AlmostInv st u → ClosedSt g flt st →
      InvFull (dfs g flt fuel u st) ∧ ClosedSt g flt (dfs g flt fuel u st) ∧
        u ∈ (dfs g flt fuel u st).visited)
    (u : Node) :
    ∀ (l : List Node) (st : WalkSt), (∀ v ∈ l, v ∈ getDeps g u) → u ∈ st.visited →
      deficit g start st ≤ d → d < fuel → InvFull st → ClosedSt g flt st →
      InvFull (dfsDeps flt (dfs g flt fuel) u l st) ∧
        ClosedSt g flt (dfsDeps flt (dfs g flt fuel) u l st) ∧
        (∀ v ∈ l, filtered flt v = true ∨ v ∈ (dfsDeps flt (dfs g flt fuel) u l st).visited) := by
  intro l
  induction l with
  | nil =>
    intro st _ _ _ _ hinv hcl
    exact ⟨hinv, hcl, by intro v hv; cases hv⟩
  | cons v vs ih =>
    intro st hl hu hdef hdf hinv hcl
    rw [dfsDeps]
    split
    · have hrest := ih st (fun v' hv' => hl v' (List.mem_cons_of_mem _ hv')) hu hdef hdf hinv hcl
      refine ⟨hrest.1, hrest.2.1, ?_⟩
      intro v' hv'
      rcases List.mem_cons.mp hv' with rfl | hv2
      · exact Or.inl (by assumption)
      · exact hrest.2.2 v' hv2
    · have hfv : filtered flt v = false := by
        simpa using (by assumption : ¬ filtered flt v = true)
      have hvU : v ∈ UList g start := by
        unfold UList
        exact List.mem_cons.mpr (Or.inr (getDeps_sub_flatMap (hl v (List.mem_cons_self _ _))))
      have halmost : AlmostInv (addEdge (u, v) st) v := by
        constructor
        · intro e he
          simp only [addEdge] at he ⊢
          rcases mem_insertNew.mp he with rfl | he2
          · exact ⟨hu, Or.inr rfl⟩
          · exact ⟨(hinv.1 e he2).1, Or.inl (hinv.1 e he2).2⟩
        · exact hinv.2
      have hclE : ClosedSt g flt (addEdge (u, v) st) := hcl
      have hdefE : deficit g start (addEdge (u, v) st) ≤ d := hdef
      have hstep := IH v (addEdge (u, v) st) hdefE hdf hvU hfv halmost hclE
      have hext := ext_dfs g flt fuel v (addEdge (u, v) st)
      have hu3 : u ∈ (dfs g flt fuel v (addEdge (u, v) st)).visited :=
        hext.visited_subset hu
      have hdef3 : deficit g start (dfs g flt fuel v (addEdge (u, v) st)) ≤ d :=
        le_trans (deficit_mono hext.visited_subset) hdefE
      have hrest := ih (dfs g flt fuel v (addEdge (u, v) st))
        (fun v' hv' => hl v' (List.mem_cons_of_mem _ hv')) hu3 hdef3 hdf hstep.1 hstep.2.1
      refine ⟨hrest.1, hrest.2.1, ?_⟩
      intro v' hv'
      rcases List.mem_cons.mp hv' with rfl | hv2
      · refine Or.inr ?_
        have hmono := ext_dfsDeps flt (dfs g flt fuel)
          (fun v'' s => ext_dfs g flt fuel v'' s) u vs (dfs g flt fuel v' (addEdge (u, v') st))
        exact hmono.visited_subset hstep.2.2
      · exact hrest.2.2 v' hv2

theorem master_dfs : ∀ (d fuel : Nat) (u : Node) (st : WalkSt),
    deficit g start st ≤ d → d < fuel → u ∈ UList g start → filtered flt u = false →
    AlmostInv st u → ClosedSt g flt st →
    InvFull (dfs g flt fuel u st) ∧ ClosedSt g flt (dfs g flt fuel u st) ∧
      u ∈ (dfs g flt fuel u st).visited := by
  intro d
  induction d with
  | zero =>
    intro fuel u st hdef hdf hU hf halmost hcl
    obtain ⟨fuel, rfl⟩ : ∃ f, fuel = f + 1 := ⟨fuel - 1, by omega⟩
    rw [dfs]
    rw [if_neg (by simp [hf])]
    split
    · have hu : u ∈ st.visited := halmost.2 (by assumption)
      refine ⟨⟨?_, halmost.2⟩, hcl, hu⟩
      intro e he
      rcases halmost.1 e he with ⟨h1, h2 | rfl⟩
      · exact ⟨h1, h2⟩
      · exact ⟨h1, hu⟩
    · split
      · have hu : u ∈ st.visited := by assumption
        refine ⟨⟨?_, halmost.2⟩, hcl, hu⟩
        intro e he
        rcases halmost.1 e he with ⟨h1, h2 | rfl⟩
        · exact ⟨h1, h2⟩
        · exact ⟨h1, hu⟩
      · exfalso
        have : 1 ≤ deficit g start st := deficit_pos g start hU (by assumption)
        omega
  | succ d ihd =>
    intro fuel u st hdef hdf hU hf halmost hcl
    obtain ⟨fuel, rfl⟩ : ∃ f, fuel = f + 1 := ⟨fuel - 1, by omega⟩
    rw [dfs]
    rw [if_neg (by simp [hf])]
    split
    · have hu : u ∈ st.visited := halmost.2 (by assumption)
      refine ⟨⟨?_, halmost.2⟩, hcl, hu⟩
      intro e he
      rcases halmost.1 e he with ⟨h1, h2 | rfl⟩
      · exact ⟨h1, h2⟩
      · exact ⟨h1, hu⟩
    · split
      · have hu : u ∈ st.visited := by assumption
        refine ⟨⟨?_, halmost.2⟩, hcl, hu⟩
        intro e he
        rcases halmost.1 e he with ⟨h1, h2 | rfl⟩
        · exact ⟨h1, h2⟩
        · exact ⟨h1, hu⟩
      · have hnv : u ∉ st.visited := by assumption
        have huP : u ∈ (pushNode u st).visited := by simp [pushNode]
        have hinvP : InvFull (pushNode u st) := by
          constructor
          · intro e he
            simp only [pushNode] at he ⊢
            rcases halmost.1 e he with ⟨h1, h2 | heq⟩
            · exact ⟨List.mem_append_left _ h1, List.mem_append_left _ h2⟩
            · exact ⟨List.mem_append_left _ h1, by rw [heq]; simp⟩
          · intro x hx
            simp only [pushNode, List.mem_append, List.mem_singleton] at hx ⊢
            rcases hx with hx | rfl
            · exact Or.inl (halmost.2 hx)
            · exact Or.inr rfl
        have hclP : ClosedSt g flt (pushNode u st) := by
          intro w hw
          simp only [pushNode, List.mem_append, List.mem_singleton] at hw
          rcases hw with hw | rfl
          · rcases hcl w hw with hp | hdeps
            · exact Or.inl (by simp only [pushNode]; exact List.mem_append_left _ hp)
            · refine Or.inr ?_
              intro v hv
              rcases hdeps v hv with h1 | h2
              · exact Or.inl h1
              · exact Or.inr (by simp only [pushNode]; exact List.mem_append_left _ h2)
          · exact Or.inl (by simp only [pushNode]; simp)
        have hdefP : deficit g start (pushNode u st) ≤ d := by
          have := deficit_push_lt g start hU hnv
          omega
        have hdfP : d < fuel := by omega
        have hdeps := master_dfsDeps d fuel
          (fun u' st' h1 h2 h3 h4 h5 h6 => ihd fuel u' st' h1 h2 h3 h4 h5 h6) u
          (sortedDeps g u) (pushNode u st) (fun v hv => mem_sortedDeps.mp hv)
          huP hdefP hdfP hinvP hclP
        set st2 := dfsDeps flt (dfs g flt fuel) u (sortedDeps g u) (pushNode u st) with hst2
        have hpath2 : st2.pathStack = st.pathStack ++ [u] := by
          have := (ext_dfsDeps flt (dfs g flt fuel)
            (fun v s => ext_dfs g flt fuel v s) u (sortedDeps g u) (pushNode u st)).2.2.2
          rw [← hst2] at this
          simpa [pushNode] using this
        have hu2 : u ∈ st2.visited := by
          have := (ext_dfsDeps flt (dfs g flt fuel)
            (fun v s => ext_dfs g flt fuel v s) u (sortedDeps g u) (pushNode u st)).visited_subset

          exact this huP
        refine ⟨⟨?_, ?_⟩, ?_, ?_⟩
        · intro e he
          simp only [popTop] at he
          exact hdeps.1.1 e he
        · intro x hx
          simp only [popTop] at hx ⊢
          have hx2 : x ∈ st2.pathStack := List.dropLast_sublist st2.pathStack |>.subset hx
          exact hdeps.1.2 hx2
        · intro w hw
          simp only [popTop] at hw ⊢
          rcases hdeps.2.1 w hw with hp | hdeps2
          · rw [hpath2] at hp
            rcases List.mem_append.mp hp with hp2 | hp3
            · refine Or.inl ?_
              rw [hpath2, List.dropLast_concat]
              exact hp2
            · rcases List.mem_singleton.mp hp3 with rfl
              refine Or.inr ?_
              intro v hv
              exact hdeps.2.2 v (mem_sortedDeps.mpr hv)
          · exact Or.inr hdeps2
        · simp only [popTop]
          exact hu2

end Master

section FuelIndependence

variable {g : Graph} {flt start : Node}

theorem fuelEq_dfsDeps (d f₁ f₂ : Nat)
    (IH : ∀ (u : Node) (st : WalkSt), deficit g start st ≤ d → d < f₁ → d < f₂ →
      u ∈ UList g start → dfs g flt f₁ u st = dfs g flt f₂ u st)
    (u : Node) :
    ∀ (l : List Node) (st : WalkSt), (∀ v ∈ l, v ∈ getDeps g u) →
      deficit g start st ≤ d → d < f₁ → d < f₂ →
      dfsDeps flt (dfs g flt f₁) u l st = dfsDeps flt (dfs g flt f₂) u l st := by
  intro l
  induction l with
  | nil => intro st _ _ _ _; rfl
  | cons v vs ih =>
    intro st hl hdef h1 h2
    rw [dfsDeps, dfsDeps]
    split
    · exact ih st (fun v' hv' => hl v' (List.mem_cons_of_mem _ hv')) hdef h1 h2
    · have hvU : v ∈ UList g start := by
        unfold UList
        exact List.mem_cons.mpr (Or.inr (getDeps_sub_flatMap (hl v (List.mem_cons_self _ _))))
      have heq : dfs g flt f₁ v (addEdge (u, v) st) = dfs g flt f₂ v (addEdge (u, v) st) :=
        IH v (addEdge (u, v) st) hdef h1 h2 hvU
      rw [heq]
      refine ih (dfs g flt f₂ v (addEdge (u, v) st))
        (fun v' hv' => hl v' (List.mem_cons_of_mem _ hv')) ?_ h1 h2
      have hext := ext_dfs g flt f₂ v (addEdge (u, v) st)
      exact le_trans (deficit_mono hext.visited_subset) hdef

theorem fuelEq_dfs : ∀ (d f₁ f₂ : Nat) (u : Node) (st : WalkSt),
    deficit g start st ≤ d → d < f₁ → d < f₂ → u ∈ UList g start →
    dfs g flt f₁ u st = dfs g flt f₂ u st := by
  intro d
  induction d with
  | zero =>
    intro f₁ f₂ u st hdef h1 h2 hU
    obtain ⟨a, rfl⟩ : ∃ x, f₁ = x + 1 := ⟨f₁ - 1, by omega⟩
    obtain ⟨b, rfl⟩ : ∃ x, f₂ = x + 1 := ⟨f₂ - 1, by omega⟩
    rw [dfs]
    rw [dfs]
    by_cases hfu : filtered flt u = true
    · rw [if_pos hfu, if_pos hfu]
    · rw [if_neg hfu, if_neg hfu]
      by_cases hp : u ∈ st.pathStack
      · rw [if_pos hp, if_pos hp]
      · rw [if_neg hp, if_neg hp]
        by_cases hv : u ∈ st.visited
        · rw [if_pos hv, if_pos hv]
        · exfalso
          have := deficit_pos g start hU hv
          omega
  | succ d ihd =>
    intro f₁ f₂ u st hdef h1 h2 hU
    obtain ⟨a, rfl⟩ : ∃ x, f₁ = x + 1 := ⟨f₁ - 1, by omega⟩
    obtain ⟨b, rfl⟩ : ∃ x, f₂ = x + 1 := ⟨f₂ - 1, by omega⟩
    rw [dfs]
    rw [dfs]
    by_cases hfu : filtered flt u = true
    · rw [if_pos hfu, if_pos hfu]
    · rw [if_neg hfu, if_neg hfu]
      by_cases hp : u ∈ st.pathStack
      · rw [if_pos hp, if_pos hp]
      · rw [if_neg hp, if_neg hp]
        by_cases hv : u ∈ st.visited
        · rw [if_pos hv, if_pos hv]
        · rw [if_neg hv, if_neg hv]
          have hdefP : deficit g start (pushNode u st) ≤ d := by
            have := deficit_push_lt g start hU hv
            omega
          have := fuelEq_dfsDeps d a b
            (fun u' st' hx h1' h2' hU' => ihd a b u' st' hx h1' h2' hU') u
            (sortedDeps g u) (pushNode u st) (fun v hv' => mem_sortedDeps.mp hv')
            hdefP (by omega) (by omega)
          rw [this]

end FuelIndependence

section ReverseIndex

variable {m : RevMap}

theorem revDfsList_ext (rec : Node → List Node → List Node)
    (hrec : ∀ v s, ∃ t, rec v s = s ++ t) :
    ∀ (l : List Node) (vis : List Node), ∃ t, revDfsList rec l vis = vis ++ t := by
  intro l
  induction l with
  | nil => intro vis; exact ⟨[], by simp [revDfsList]⟩
  | cons v vs ih =>
    intro vis
    rw [revDfsList]
    split
    · exact ih vis
    · obtain ⟨t1, ht1⟩ := hrec v (vis ++ [v])
      obtain ⟨t2, ht2⟩ := ih (rec v (vis ++ [v]))
      exact ⟨[v] ++ t1 ++ t2, by rw [ht2, ht1]; simp⟩

theorem revDfs_ext : ∀ (fuel : Nat) (u : Node) (vis : List Node),
    ∃ t, revDfs m fuel u vis = vis ++ t := by
  intro fuel
  induction fuel with
  | zero => intro u vis; exact ⟨[], by simp [revDfs]⟩
  | succ fuel ih =>
    intro u vis
    rw [revDfs]
    exact revDfsList_ext (revDfs m fuel) (fun v s => ih v s) (sortedGet m u) vis

theorem revDfs_subset (fuel : Nat) (u : Node) (vis : List Node) :
    vis ⊆ revDfs m fuel u vis := by
  obtain ⟨t, ht⟩ := revDfs_ext (m := m) fuel u vis
  rw [ht]
  exact List.subset_append_left _ _

theorem revDfsList_all_mem (rec : Node → List Node → List Node) :
    ∀ (l : List Node) (vis : List Node), (∀ v ∈ l, v ∈ vis) →
      revDfsList rec l vis = vis := by
  intro l
  induction l with
  | nil => intro vis _; rfl
  | cons v vs ih =>
    intro vis hl
    rw [revDfsList]
    rw [if_pos (hl v (List.mem_cons_self _ _))]
    exact ih vis (fun v' hv' => hl v' (List.mem_cons_of_mem _ hv'))

theorem revDfsList_mem (rec : Node → List Node → List Node)
    (hrec : ∀ v s, ∃ t, rec v s = s ++ t) :
    ∀ (l : List Node) (vis : List Node) (a : Node), a ∈ l →
      a ∈ revDfsList rec l vis := by
  intro l
  induction l with
  | nil => intro vis a ha; cases ha
  | cons v vs ih =>
    intro vis a ha
    rw [revDfsList]
    rcases List.mem_cons.mp ha with rfl | ha2
    · split
      · obtain ⟨t, ht⟩ := revDfsList_ext rec hrec vs vis
        rw [ht]
        exact List.mem_append_left _ (by assumption)
      · obtain ⟨t1, ht1⟩ := hrec a (vis ++ [a])
        obtain ⟨t2, ht2⟩ := revDfsList_ext rec hrec vs (rec a (vis ++ [a]))
        rw [ht2, ht1]
        refine List.mem_append_left _ (List.mem_append_left _ ?_)
        simp
    · split
      · exact ih vis a ha2
      · exact ih _ a ha2

/-- Lookup distributes over append on association lists. -/
theorem lookup_append_some {γ β : Type} [BEq γ] {m1 m2 : List (γ × β)} {k : γ} {v : β}
    (h : m1.lookup k = some v) : (m1 ++ m2).lookup k = some v := by
  induction m1 with
  | nil => simp [List.lookup] at h
  | cons p rest ih =>
    obtain ⟨a, b⟩ := p
    rw [List.cons_append, List.lookup_cons]
    rw [List.lookup_cons] at h
    cases hbeq : (k == a) with
    | true => rw [hbeq] at h; exact h
    | false => rw [hbeq] at h; exact ih h

theorem lookup_append_none {γ β : Type} [BEq γ] {m1 m2 : List (γ × β)} {k : γ}
    (h : m1.lookup k = none) : (m1 ++ m2).lookup k = m2.lookup k := by
  induction m1 with
  | nil => simp
  | cons p rest ih =>
    obtain ⟨a, b⟩ := p
    rw [List.cons_append, List.lookup_cons]
    rw [List.lookup_cons] at h
    cases hbeq : (k == a) with
    | true => rw [hbeq] at h; exact Option.noConfusion h
    | false => rw [hbeq] at h; exact ih h

theorem assocGet_revAdd (m : RevMap) (b a k : Node) :
    assocGet (revAdd m b a) k =
      if k = b then insertNew a (assocGet m k) else assocGet m k := by
  induction m with
  | nil =>
    unfold revAdd assocGet
    by_cases hk : k = b
    · subst hk
      simp [List.lookup_cons, insertNew]
    · rw [if_neg hk]
      have : (k == b) = false := beq_false_of_ne hk
      simp [List.lookup_cons, this, List.lookup, insertNew]
  | cons p rest ih =>
    obtain ⟨pk, pv⟩ := p
    unfold revAdd
    by_cases hpb : pk = b
    · subst hpb
      rw [if_pos rfl]
      unfold assocGet
      by_cases hk : k = pk
      · subst hk
        simp [List.lookup_cons]
      · have hbeq : (k == pk) = false := beq_false_of_ne hk
        simp [List.lookup_cons, hbeq, if_neg hk]
    · rw [if_neg hpb]
      unfold assocGet at ih ⊢
      by_cases hk : k = pk
      · subst hk
        have hkb : k ≠ b := hpb
        simp [List.lookup_cons, if_neg hkb]
      · have hbeq : (k == pk) = false := beq_false_of_ne hk
        simp only [List.lookup_cons, hbeq]
        exact ih

theorem assocGet_revEnsure (m : RevMap) (x k : Node) :
    assocGet (revEnsure m x) k = assocGet m k := by
  unfold revEnsure
  split
  · rfl
  · unfold assocGet
    rcases hl : m.lookup k with _ | v
    · rw [lookup_append_none hl]
      by_cases hk : k = x
      · subst hk
        simp [List.lookup_cons]
      · have : (k == x) = false := beq_false_of_ne hk
        simp [List.lookup_cons, this, List.lookup]
    · rw [lookup_append_some hl]

theorem assocGet_buildRev_step (m : RevMap) (e : Edge) (x k : Node) :
    x ∈ assocGet (revEnsure (revAdd m e.2 e.1) e.1) k ↔
      (x = e.1 ∧ k = e.2) ∨ x ∈ assocGet m k := by
  rw [assocGet_revEnsure, assocGet_revAdd]
  by_cases hk : k = e.2
  · subst hk
    rw [if_pos rfl, mem_insertNew]
    constructor
    · rintro (rfl | h)
      · exact Or.inl ⟨rfl, rfl⟩
      · exact Or.inr h
    · rintro (⟨rfl, _⟩ | h)
      · exact Or.inl rfl
      · exact Or.inr h
  · rw [if_neg hk]
    constructor
    · exact fun h => Or.inr h
    · rintro (⟨rfl, rfl⟩ | h)
      · exact absurd rfl hk
      · exact h

theorem mem_assocGet_foldRev (x k : Node) :
    ∀ (es : List Edge) (m : RevMap),
      x ∈ assocGet (es.foldl (fun acc e => revEnsure (revAdd acc e.2 e.1) e.1) m) k ↔
        (x, k) ∈ es ∨ x ∈ assocGet m k := by
  intro es
  induction es with
  | nil => intro m; simp
  | cons e rest ih =>
    intro m
    rw [List.foldl_cons, ih, assocGet_buildRev_step]
    constructor
    · rintro (h | ⟨rfl, rfl⟩ | h)
      · exact Or.inl (List.mem_cons_of_mem _ h)
      · exact Or.inl (by simp)
      · exact Or.inr h
    · rintro (h | h)
      · rcases List.mem_cons.mp h with heq | h2
        · refine Or.inr (Or.inl ?_)
          have h1 : x = e.1 := congrArg Prod.fst heq
          have h2 : k = e.2 := congrArg Prod.snd heq
          exact ⟨h1, h2⟩
        · exact Or.inl h2
      · exact Or.inr (Or.inr h)

theorem assocGet_extra_fold (k : Node) :
    ∀ (extra : List Node) (m : RevMap),
      assocGet (extra.foldl revEnsure m) k = assocGet m k := by
  intro extra
  induction extra with
  | nil => intro m; rfl
  | cons n rest ih =>
    intro m
    rw [List.foldl_cons, ih, assocGet_revEnsure]

/-- Characterisation of the reverse mapping: x is a recorded reverse dependent
of k exactly when the edge (x, k) is in the edge set. -/
theorem mem_assocGet_buildRev {edges : List Edge} {extra : List Node} {x k : Node} :
    x ∈ assocGet (buildRev edges extra) k ↔ (x, k) ∈ edges := by
  unfold buildRev
  rw [assocGet_extra_fold, mem_assocGet_foldRev]
  have hnil : assocGet ([] : RevMap) k = [] := rfl
  rw [hnil]
  simp

theorem mem_sortedGet {k x : Node} : x ∈ sortedGet m k ↔ x ∈ assocGet m k := by
  unfold sortedGet
  rw [mem_sortNodes, List.mem_dedup]

theorem assocGet_sub_values {k : Node} : assocGet m k ⊆ m.flatMap Prod.snd := by
  intro x hx
  unfold assocGet at hx
  rcases hl : m.lookup k with _ | v
  · rw [hl] at hx
    simp at hx
  · rw [hl] at hx
    simp only [Option.getD_some] at hx
    simp only [List.mem_flatMap]
    exact ⟨(k, v), lookup_mem hl, hx⟩

/-- Number of reverse-mapping value nodes not yet visited by the reverse dfs. -/
def revDeficit (m : RevMap) (vis : List Node) : Nat :=
  ((m.flatMap Prod.snd).toFinset \ vis.toFinset).card

theorem revDeficit_mono {vis vis' : List Node} (h : vis ⊆ vis') :
    revDeficit m vis' ≤ revDeficit m vis := by
  refine Finset.card_le_card ?_
  intro x hx
  rw [Finset.mem_sdiff, List.mem_toFinset, List.mem_toFinset] at hx ⊢
  exact ⟨hx.1, fun hc => hx.2 (h hc)⟩

theorem revDeficit_snoc_lt {vis : List Node} {v : Node}
    (hv : v ∈ m.flatMap Prod.snd) (hnv : v ∉ vis) :
    revDeficit m (vis ++ [v]) < revDeficit m vis := by
  refine Finset.card_lt_card ?_
  rw [Finset.ssubset_iff_of_subset]
  · refine ⟨v, ?_, ?_⟩
    · rw [Finset.mem_sdiff, List.mem_toFinset, List.mem_toFinset]
      exact ⟨hv, hnv⟩
    · rw [Finset.mem_sdiff, List.mem_toFinset, List.mem_toFinset]
      push_neg
      intro _
      simp
  · intro x hx
    rw [Finset.mem_sdiff, List.mem_toFinset, List.mem_toFinset] at hx ⊢
    exact ⟨hx.1, fun hc => hx.2 (List.mem_append_left _ hc)⟩

theorem revDeficit_zero_mem {vis : List Node} (h : revDeficit m vis = 0) :
    ∀ x ∈ m.flatMap Prod.snd, x ∈ vis := by
  intro x hx
  by_contra hnx
  have hmem : x ∈ (m.flatMap Prod.snd).toFinset \ vis.toFinset := by
    rw [Finset.mem_sdiff, List.mem_toFinset, List.mem_toFinset]
    exact ⟨hx, hnx⟩
  have hpos := Finset.card_pos.mpr ⟨x, hmem⟩
  unfold revDeficit at h
  omega

theorem revFuelEq_list (d f₁ f₂ : Nat)
    (IH : ∀ (u : Node) (vis : List Node), revDeficit m vis ≤ d → d < f₁ → d < f₂ →
      revDfs m f₁ u vis = revDfs m f₂ u vis) :
    ∀ (l : List Node) (vis : List Node), (∀ v ∈ l, v ∈ m.flatMap Prod.snd) →
      revDeficit m vis ≤ d + 1 → d < f₁ → d < f₂ →
      revDfsList (revDfs m f₁) l vis = revDfsList (revDfs m f₂) l vis := by
  intro l
  induction l with
  | nil => intro vis _ _ _ _; rfl
  | cons v vs ih =>
    intro vis hl hdef h1 h2
    rw [revDfsList, revDfsList]
    split
    · exact ih vis (fun v' hv' => hl v' (List.mem_cons_of_mem _ hv')) hdef h1 h2
    · have hnv : v ∉ vis := by assumption
      have hvval : v ∈ m.flatMap Prod.snd := hl v (List.mem_cons_self _ _)
      have hdef2 : revDeficit m (vis ++ [v]) ≤ d := by
        have := revDeficit_snoc_lt (m := m) hvval hnv
        omega
      have heq := IH v (vis ++ [v]) hdef2 h1 h2
      rw [heq]
      refine ih (revDfs m f₂ v (vis ++ [v]))
        (fun v' hv' => hl v' (List.mem_cons_of_mem _ hv')) ?_ h1 h2
      have hsub : (vis ++ [v]) ⊆ revDfs m f₂ v (vis ++ [v]) := revDfs_subset f₂ v _
      have hsub2 : vis ⊆ revDfs m f₂ v (vis ++ [v]) :=
        fun x hx => hsub (List.mem_append_left _ hx)
      have := revDeficit_mono (m := m) hsub2
      omega

theorem revFuelEq : ∀ (d f₁ f₂ : Nat) (u : Node) (vis : List Node),
    revDeficit m vis ≤ d → d < f₁ → d < f₂ →
    revDfs m f₁ u vis = revDfs m f₂ u vis := by
  intro d
  induction d with
  | zero =>
    intro f₁ f₂ u vis hdef h1 h2
    obtain ⟨a, rfl⟩ : ∃ x, f₁ = x + 1 := ⟨f₁ - 1, by omega⟩
    obtain ⟨b, rfl⟩ : ∃ x, f₂ = x + 1 := ⟨f₂ - 1, by omega⟩
    rw [revDfs, revDfs]
    have hall : ∀ v ∈ sortedGet m u, v ∈ vis := by
      intro v hv
      exact revDeficit_zero_mem (Nat.le_zero.mp hdef)
        v (assocGet_sub_values (mem_sortedGet.mp hv))
    rw [revDfsList_all_mem _ _ _ hall, revDfsList_all_mem _ _ _ hall]
  | succ d ihd =>
    intro f₁ f₂ u vis hdef h1 h2
    obtain ⟨a, rfl⟩ : ∃ x, f₁ = x + 1 := ⟨f₁ - 1, by omega⟩
    obtain ⟨b, rfl⟩ : ∃ x, f₂ = x + 1 := ⟨f₂ - 1, by omega⟩
    rw [revDfs, revDfs]
    exact revFuelEq_list d a b
      (fun u' vis' hx h1' h2' => ihd a b u' vis' hx h1' h2')
      (sortedGet m u) vis
      (fun v hv => assocGet_sub_values (mem_sortedGet.mp hv))
      hdef (by omega) (by omega)

theorem revDeficit_init_le : revDeficit m [] ≤ (m.flatMap Prod.snd).length := by
  unfold revDeficit
  simp only [List.toFinset_nil, Finset.sdiff_empty]
  exact List.toFinset_card_le _

end ReverseIndex

section Ordering

theorem strLe_total : ∀ a b : Node, strLe a b = true ∨ strLe b a = true := by
  intro a
  induction a with
  | nil => intro b; exact Or.inl rfl
  | cons x xs ih =>
    intro b
    cases b with
    | nil => exact Or.inr rfl
    | cons y ys =>
      by_cases hxy : x = y
      · subst hxy
        rcases ih ys with h | h
        · exact Or.inl (by simp [strLe, h])
        · exact Or.inr (by simp [strLe, h])
      · rcases lt_or_gt_of_ne hxy with h | h
        · exact Or.inl (by simp [strLe, hxy, h])
        · exact Or.inr (by simp [strLe, Ne.symm hxy, h])

theorem strLe_trans : ∀ a b c : Node, strLe a b = true → strLe b c = true → strLe a c = true := by
  intro a
  induction a with
  | nil => intro b c _ _; rfl
  | cons x xs ih =>
    intro b c hab hbc
    cases b with
    | nil => simp [strLe] at hab
    | cons y ys =>
      cases c with
      | nil => simp [strLe] at hbc
      | cons z zs =>
        by_cases hxy : x = y <;> by_cases hyz : y = z
        · subst hxy hyz
          simp only [strLe, if_pos rfl] at hab hbc ⊢
          exact ih ys zs hab hbc
        · subst hxy
          simp only [strLe, if_pos rfl] at hab
          simp only [strLe, if_neg hyz, decide_eq_true_eq] at hbc
          simp [strLe, hyz, hbc]
        · subst hyz
          simp only [strLe, if_neg hxy, decide_eq_true_eq] at hab
          simp [strLe, hxy, hab]
        · simp only [strLe, if_neg hxy, decide_eq_true_eq] at hab
          simp only [strLe, if_neg hyz, decide_eq_true_eq] at hbc
          have hxz : x < z := lt_trans hab hbc
          simp [strLe, ne_of_lt hxz, hxz]

theorem strLe_antisymm : ∀ a b : Node, strLe a b = true → strLe b a = true → a = b := by
  intro a
  induction a with
  | nil =>
    intro b _ hba
    cases b with
    | nil => rfl
    | cons y ys => simp [strLe] at hba
  | cons x xs ih =>
    intro b hab hba
    cases b with
    | nil => simp [strLe] at hab
    | cons y ys =>
      by_cases hxy : x = y
      · subst hxy
        simp only [strLe, if_pos rfl] at hab hba
        rw [ih ys hab hba]
      · simp only [strLe, if_neg hxy, decide_eq_true_eq] at hab
        simp only [strLe, if_neg (Ne.symm hxy), decide_eq_true_eq] at hba
        exact absurd hba (lt_asymm hab)

theorem edgeLe_total : ∀ a b : Edge, edgeLe a b = true ∨ edgeLe b a = true := by
  intro a b
  unfold edgeLe
  by_cases h : a.1 = b.1
  · rw [if_pos h, if_pos h.symm]
    exact strLe_total a.2 b.2
  · rw [if_neg h, if_neg (Ne.symm h)]
    exact strLe_total a.1 b.1

theorem edgeLe_trans : ∀ a b c : Edge, edgeLe a b = true → edgeLe b c = true →
    edgeLe a c = true := by
  intro a b c hab hbc
  unfold edgeLe at hab hbc ⊢
  by_cases h1 : a.1 = b.1 <;> by_cases h2 : b.1 = c.1
  · rw [if_pos h1] at hab
    rw [if_pos h2] at hbc
    rw [if_pos (h1.trans h2)]
    exact strLe_trans _ _ _ hab hbc
  · rw [if_pos h1] at hab
    rw [if_neg h2] at hbc
    rw [if_neg (by rw [h1]; exact h2)]
    rw [h1]
    exact hbc
  · rw [if_neg h1] at hab
    rw [if_pos h2] at hbc
    rw [if_neg (by rw [← h2]; exact h1)]
    rw [← h2]
    exact hab
  · rw [if_neg h1] at hab
    rw [if_neg h2] at hbc
    by_cases h3 : a.1 = c.1
    · exfalso
      rw [h3] at hab
      exact h2 (strLe_antisymm _ _ hbc hab)
    · rw [if_neg h3]
      exact strLe_trans _ _ _ hab hbc

instance : IsTotal Node strLeP := ⟨fun a b => strLe_total a b⟩

instance : IsTrans Node strLeP := ⟨fun a b c => strLe_trans a b c⟩

instance : IsTotal Edge edgeLeP := ⟨fun a b => edgeLe_total a b⟩

instance : IsTrans Edge edgeLeP := ⟨fun a b c => edgeLe_trans a b c⟩

theorem sortNodes_sorted (l : List Node) : List.Sorted strLeP (sortNodes l) :=
  List.sorted_insertionSort strLeP l

theorem sortEdges_sorted (l : List Edge) : List.Sorted edgeLeP (sortEdges l) :=
  List.sorted_insertionSort edgeLeP l

theorem sortNodes_nodup {l : List Node} (h : l.Nodup) : (sortNodes l).Nodup :=
  (List.perm_insertionSort strLeP l).nodup_iff.mpr h

theorem sortEdges_nodup {l : List Edge} (h : l.Nodup) : (sortEdges l).Nodup :=
  (List.perm_insertionSort edgeLeP l).nodup_iff.mpr h

/-- Number of occurrences of an element in a list. -/
def countOcc {α : Type} [DecidableEq α] (x : α) : List α → Nat
  | [] => 0
  | y :: ys => (if y = x then 1 else 0) + countOcc x ys

theorem countOcc_append {α : Type} [DecidableEq α] (x : α) (l1 l2 : List α) :
    countOcc x (l1 ++ l2) = countOcc x l1 + countOcc x l2 := by
  induction l1 with
  | nil => simp [countOcc]
  | cons y ys ih => simp [countOcc, ih]; omega

theorem countOcc_eq_zero_of_not_mem {α : Type} [DecidableEq α] {x : α} {l : List α}
    (h : x ∉ l) : countOcc x l = 0 := by
  induction l with
  | nil => rfl
  | cons y ys ih =>
    rw [countOcc]
    rw [List.mem_cons, not_or] at h
    rw [if_neg (fun he => h.1 he.symm), ih h.2]

theorem countOcc_eq_one_of_nodup_mem {α : Type} [DecidableEq α] {x : α} {l : List α}
    (hnd : l.Nodup) (hx : x ∈ l) : countOcc x l = 1 := by
  induction l with
  | nil => cases hx
  | cons y ys ih =>
    rw [countOcc]
    rw [List.nodup_cons] at hnd
    rcases List.mem_cons.mp hx with rfl | h2
    · rw [if_pos rfl, countOcc_eq_zero_of_not_mem hnd.1]
    · rw [if_neg ?_, ih hnd.2 h2]
      intro he
      subst he
      exact hnd.1 h2

theorem count_dotNodeSeq {nodes : List Node} {start n : Node} (hn : n ∈ nodes) :
    countOcc n (dotNodeSeq nodes start) = 1 := by
  unfold dotNodeSeq
  rw [countOcc_append]
  have hnodup : ((sortNodes nodes.dedup).filter (fun x => decide (x ≠ start))).Nodup :=
    (sortNodes_nodup (List.nodup_dedup nodes)).filter _
  by_cases hstart : n = start
  · subst hstart
    rw [if_pos hn]
    have h0 : countOcc n (List.filter (fun x => decide (x ≠ n)) (sortNodes nodes.dedup)) = 0 := by
      refine countOcc_eq_zero_of_not_mem ?_
      intro hmem
      have := List.of_mem_filter hmem
      simp at this
    rw [h0]
    simp [countOcc]
  · have h1 : n ∈ (sortNodes nodes.dedup).filter (fun x => decide (x ≠ start)) := by
      rw [List.mem_filter]
      exact ⟨mem_sortNodes.mpr (List.mem_dedup.mpr hn), by simp [hstart]⟩
    rw [countOcc_eq_one_of_nodup_mem hnodup h1]
    split
    · simp [countOcc, Ne.symm hstart]
    · simp [countOcc]

theorem count_dotEdgeSeq {edges : List Edge} {e : Edge} (he : e ∈ edges) :
    countOcc e (dotEdgeSeq edges) = 1 := by
  unfold dotEdgeSeq
  exact countOcc_eq_one_of_nodup_mem (sortEdges_nodup (List.nodup_dedup edges))
    (mem_sortEdges.mpr (List.mem_dedup.mpr he))

theorem dotNodeTail_sorted (nodes : List Node) (start : Node) :
    List.Sorted strLeP ((sortNodes nodes.dedup).filter (fun n => decide (n ≠ start))) :=
  (sortNodes_sorted nodes.dedup).sublist (List.filter_sublist _)

end Ordering

section CollectAll

variable {flt : Node}

theorem collectInner_edges_mono (u : Node) :
    ∀ (ds : List Node) (acc : List Node × List Edge),
      acc.2 ⊆ (ds.foldl (collectInner flt u) acc).2 := by
  intro ds
  induction ds with
  | nil => intro acc; exact fun x hx => hx
  | cons v vs ih =>
    intro acc
    rw [List.foldl_cons]
    refine subset_trans ?_ (ih (collectInner flt u acc v))
    unfold collectInner
    split
    · exact fun x hx => hx
    · exact subset_insertNew

theorem collectStep_edges_mono (acc : List Node × List Edge) (p : Node × List Node) :
    acc.2 ⊆ (collectStep flt acc p).2 := by
  unfold collectStep
  split
  · exact fun x hx => hx
  · exact collectInner_edges_mono p.1 p.2 (insertNew p.1 acc.1, acc.2)

theorem collectFold_edges_mono :
    ∀ (gs : Graph) (acc : List Node × List Edge),
      acc.2 ⊆ (gs.foldl (collectStep flt) acc).2 := by
  intro gs
  induction gs with
  | nil => intro acc; exact fun x hx => hx
  | cons p rest ih =>
    intro acc
    rw [List.foldl_cons]
    exact subset_trans (collectStep_edges_mono acc p) (ih _)

theorem collectInner_edges_mem (u v : Node) (hv2 : filtered flt v = false) :
    ∀ (ds : List Node) (acc : List Node × List Edge), v ∈ ds →
      (u, v) ∈ (ds.foldl (collectInner flt u) acc).2 := by
  intro ds
  induction ds with
  | nil => intro acc hv; cases hv
  | cons w ws ih =>
    intro acc hv
    rw [List.foldl_cons]
    rcases List.mem_cons.mp hv with rfl | hv3
    · refine collectInner_edges_mono u ws _ ?_
      unfold collectInner
      rw [if_neg (by simp [hv2])]
      exact self_mem_insertNew
    · exact ih _ hv3

theorem mem_collectAll_edges (flt : Node) {g : Graph} {u v : Node} {ds : List Node}
    (hp : (u, ds) ∈ g) (hv : v ∈ ds)
    (hu : filtered flt u = false) (hvf : filtered flt v = false) :
    (u, v) ∈ (collectAll g flt).2 := by
  unfold collectAll
  have : ∀ (gs : Graph) (acc : List Node × List Edge), (u, ds) ∈ gs →
      (u, v) ∈ (gs.foldl (collectStep flt) acc).2 := by
    intro gs
    induction gs with
    | nil => intro acc h; cases h
    | cons p rest ih =>
      intro acc h
      rw [List.foldl_cons]
      rcases List.mem_cons.mp h with rfl | h2
      · refine collectFold_edges_mono rest _ ?_
        unfold collectStep
        rw [if_neg (by simp [hu])]
        exact collectInner_edges_mem u v hvf ds _ hv
      · exact ih _ h2
  exact this g ([], []) hp

/-- Every edge the walker records is also in the edges_all set main builds for
the reverse query, with the same filter. -/
theorem walker_edges_sub_collectAll {g : Graph} {flt start : Node} :
    ∀ e ∈ (build_graph_from_test start g flt).edges, e ∈ (collectAll g flt).2 := by
  intro e he
  have hprov : EdgesProven g flt (build_graph_from_test start g flt) := by
    unfold build_graph_from_test
    refine edgesProven_dfs (walkFuel g start) start initSt ?_
    intro e' he'
    cases he'
  obtain ⟨hdep, hu, hv⟩ := hprov e he
  unfold getDeps at hdep
  rcases hl : g.lookup e.1 with _ | ds
  · rw [hl] at hdep
    cases hdep
  · rw [hl] at hdep
    have hmem := lookup_mem hl
    have := mem_collectAll_edges flt hmem hdep hu hv
    simpa using this

end CollectAll

section ParserLemmas

theorem splitDelimAux_tokens :
    ∀ (s cur : List Char), (∀ c ∈ cur, isDelim c = false) →
      ∀ t ∈ splitDelimAux cur s, t ≠ [] ∧ ∀ c ∈ t, isDelim c = false := by
  intro s
  induction s with
  | nil =>
    intro cur hcur t ht
    rw [splitDelimAux] at ht
    split at ht
    · cases ht
    · rcases List.mem_singleton.mp ht with rfl
      refine ⟨by simpa using (by assumption : ¬ cur = []), ?_⟩
      intro c hc
      exact hcur c (List.mem_reverse.mp hc)
  | cons c cs ih =>
    intro cur hcur t ht
    rw [splitDelimAux] at ht
    split at ht
    · rcases List.mem_append.mp ht with h1 | h2
      · split at h1
        · cases h1
        · rcases List.mem_singleton.mp h1 with rfl
          refine ⟨by simpa using (by assumption : ¬ cur = []), ?_⟩
          intro c' hc'
          exact hcur c' (List.mem_reverse.mp hc')
      · exact ih [] (by intro c' hc'; cases hc') t h2
    · refine ih (c :: cur) ?_ t ht
      intro c' hc'
      rcases List.mem_cons.mp hc' with rfl | h2
      · simpa using (by assumption : ¬ isDelim c' = true)
      · exact hcur c' h2

theorem splitDelim_tokens (s : List Char) :
    ∀ t ∈ splitDelim s, t ≠ [] ∧ ∀ c ∈ t, isDelim c = false :=
  splitDelimAux_tokens s [] (by intro c hc; cases hc)

theorem parseLine_blank {g : Graph} {raw : List Char} (h : strip raw = []) :
    parseLine g raw = g := by
  unfold parseLine
  rw [h]
  rfl

theorem parseLine_comment {g : Graph} {raw cs : List Char} (h : strip raw = '#' :: cs) :
    parseLine g raw = g := by
  unfold parseLine
  rw [h]
  rw [if_neg (by simp), if_pos (by simp)]

theorem parseLine_colon {g : Graph} {raw l r : List Char}
    (hne : strip raw ≠ []) (hh : (strip raw).head? ≠ some '#')
    (hsp : splitOnceChar ':' (strip raw) = some (l, r)) :
    parseLine g raw = setAssoc g (strip l) ((splitDelim (strip r)).dedup) := by
  unfold parseLine
  rw [if_neg hne, if_neg hh, hsp]

theorem parseLine_arrow {g : Graph} {raw l r : List Char}
    (hne : strip raw ≠ []) (hh : (strip raw).head? ≠ some '#')
    (hc : splitOnceChar ':' (strip raw) = none)
    (hsp : splitOnceArrow (strip raw) = some (l, r)) :
    parseLine g raw = setAssoc g (strip l) ((splitDelim (strip r)).dedup) := by
  unfold parseLine
  rw [if_neg hne, if_neg hh, hc, hsp]

theorem parseLine_bare {g : Graph} {raw : List Char}
    (hne : strip raw ≠ []) (hh : (strip raw).head? ≠ some '#')
    (hc : splitOnceChar ':' (strip raw) = none)
    (ha : splitOnceArrow (strip raw) = none) :
    parseLine g raw = setAssoc g (strip (strip raw)) [] := by
  unfold parseLine
  rw [if_neg hne, if_neg hh, hc, ha]

theorem getDeps_absent {g : Graph} {u : Node} (h : u ∉ g.map Prod.fst) :
    getDeps g u = [] := by
  unfold getDeps
  rw [lookup_eq_none_of_not_mem_keys h]

end ParserLemmas

section WalkAssembly

variable {g : Graph} {flt start : Node}

theorem filtered_nil (u : Node) : filtered [] u = false := rfl

theorem walkFuel_eq : walkFuel g start = (UList g start).length + 1 := rfl

theorem dfs_entry_filtered (h : filtered flt start = true) :
    ∀ (fuel : Nat) (st : WalkSt), dfs g flt fuel start st = st := by
  intro fuel st
  cases fuel with
  | zero => rfl
  | succ fuel => rw [dfs, if_pos h]

theorem walk_master (hstart : filtered flt start = false) :
    InvFull (build_graph_from_test start g flt) ∧
      ClosedSt g flt (build_graph_from_test start g flt) ∧
      start ∈ (build_graph_from_test start g flt).visited := by
  unfold build_graph_from_test
  refine master_dfs (UList g start).length (walkFuel g start) start initSt
    deficit_init_le (Nat.lt_succ_self _) (List.mem_cons_self _ _) hstart ?_ ?_
  · exact ⟨fun e he => absurd he (by simp [initSt]), by simp [initSt]⟩
  · intro w hw
    simp [initSt] at hw

theorem walk_edges_endpoints :
    ∀ e ∈ (build_graph_from_test start g flt).edges,
      e.1 ∈ (build_graph_from_test start g flt).visited ∧
        e.2 ∈ (build_graph_from_test start g flt).visited := by
  by_cases hstart : filtered flt start = true
  · intro e he
    unfold build_graph_from_test at he
    rw [dfs_entry_filtered hstart] at he
    simp [initSt] at he
  · exact (walk_master (by simpa using hstart)).1.1

theorem walk_pathStack_nil : (build_graph_from_test start g flt).pathStack = [] := by
  unfold build_graph_from_test
  rw [dfs_pathStack]
  rfl

theorem walk_visited_sound :
    ∀ w ∈ (build_graph_from_test start g flt).visited, Reachable g start w := by
  unfold build_graph_from_test
  refine visitedReach_dfs (walkFuel g start) start initSt Relation.ReflTransGen.refl ?_
  intro w hw
  simp [initSt] at hw

theorem walk_visited_complete :
    ∀ w, Reachable g start w → w ∈ (build_graph_from_test start g []).visited := by
  have hm : InvFull (build_graph_from_test start g []) ∧
      ClosedSt g [] (build_graph_from_test start g []) ∧
      start ∈ (build_graph_from_test start g []).visited :=
    walk_master (filtered_nil start)
  have hclosed := hm.2.1
  have hstartmem := hm.2.2
  intro w hr
  induction hr with
  | refl => exact hstartmem
  | tail hab hbc ih =>
    rcases hclosed _ ih with hp | hdeps
    · rw [walk_pathStack_nil] at hp
      cases hp
    · rcases hdeps _ hbc with hf | hv
      · rw [filtered_nil] at hf
        cases hf
      · exact hv

theorem walk_cycles_nil (hacy : Acyclic g) :
    (build_graph_from_test start g flt).cycles = [] := by
  unfold build_graph_from_test
  rw [noCycles_dfs hacy (walkFuel g start) start initSt List.chain'_nil ?_]
  · rfl
  · intro x hx
    simp [initSt] at hx

theorem walk_fuel_indep (k : Nat) :
    dfs g flt (walkFuel g start + k) start initSt = build_graph_from_test start g flt := by
  unfold build_graph_from_test
  refine fuelEq_dfs (UList g start).length _ _ start initSt deficit_init_le ?_ ?_
    (List.mem_cons_self _ _)
  · rw [walkFuel_eq]
    omega
  · exact Nat.lt_succ_self _

theorem mem_find_reverse {edges : List Edge} {extra : List Node} {a b : Node}
    (hab : (a, b) ∈ edges) (hne : a ≠ b) :
    a ∈ find_reverse_dependencies b edges extra := by
  unfold find_reverse_dependencies
  have hmem : a ∈ sortedGet (buildRev edges extra) b :=
    mem_sortedGet.mpr (mem_assocGet_buildRev.mpr hab)
  have hin : a ∈ revDfs (buildRev edges extra) (revFuel (buildRev edges extra)) b [] := by
    unfold revFuel
    rw [revDfs]
    exact revDfsList_mem _ (fun v s => revDfs_ext _ v s) _ _ _ hmem
  rw [List.mem_filter]
  exact ⟨hin, by simp [hne]⟩

theorem not_mem_find_reverse_self (target : Node) (edges : List Edge) (extra : List Node) :
    target ∉ find_reverse_dependencies target edges extra := by
  unfold find_reverse_dependencies
  intro h
  rw [List.mem_filter] at h
  simp at h

theorem find_reverse_no_incoming {edges : List Edge} {extra : List Node} {target : Node}
    (h : ∀ x, (x, target) ∉ edges) :
    find_reverse_dependencies target edges extra = [] := by
  unfold find_reverse_dependencies
  have hs : sortedGet (buildRev edges extra) target = [] := by
    rw [List.eq_nil_iff_forall_not_mem]
    intro x hx
    exact h x (mem_assocGet_buildRev.mp (mem_sortedGet.mp hx))
  have hrev : revDfs (buildRev edges extra) (revFuel (buildRev edges extra)) target [] = [] := by
    unfold revFuel
    rw [revDfs, hs]
    rfl
  rw [hrev]
  rfl

theorem rev_fuel_indep (edges : List Edge) (extra : List Node) (target : Node) (k : Nat) :
    (revDfs (buildRev edges extra) (revFuel (buildRev edges extra) + k) target []).filter
        (fun x => decide (x ≠ target)) =
      find_reverse_dependencies target edges extra := by
  unfold find_reverse_dependencies
  congr 1
  refine revFuelEq ((buildRev edges extra).flatMap Prod.snd).length _ _ target []
    revDeficit_init_le ?_ ?_
  · unfold revFuel
    omega
  · unfold revFuel
    omega

end WalkAssembly

section Claims

/-- Helper for the C3 witness: the one-edge adjacency map A -> B is acyclic. -/
theorem acyclic_single_edge : Acyclic [("A".toList, ["B".toList])] := by
  have hget : ∀ a : Node, getDeps [("A".toList, ["B".toList])] a =
      if a = "A".toList then ["B".toList] else [] := by
    intro a
    unfold getDeps
    by_cases ha : a = "A".toList
    · subst ha
      simp [List.lookup_cons]
    · have hbeq : (a == "A".toList) = false := beq_false_of_ne ha
      rw [List.lookup_cons, hbeq, if_neg ha]
      rfl
  have hstep : ∀ a b : Node, step [("A".toList, ["B".toList])] a b →
      a = "A".toList ∧ b = "B".toList := by
    intro a b h
    unfold step at h
    rw [hget] at h
    split at h
    · rcases List.mem_singleton.mp h with rfl
      exact ⟨by assumption, rfl⟩
    · cases h
  have htg : ∀ x y : Node, Relation.TransGen (step [("A".toList, ["B".toList])]) x y →
      x = "A".toList ∧ y = "B".toList := by
    intro x y h
    induction h with
    | single h1 => exact hstep _ _ h1
    | tail _ h2 ih => exact ⟨ih.1, (hstep _ _ h2).2⟩
  intro x hx
  obtain ⟨h1, h2⟩ := htg x x hx
  exact absurd (h1.symm.trans h2) (by decide)

/-- C1: for the static graph file with lines A: B and B: A, walking from A with
an empty filter is claimed to return edge set containing only (A, B); the code
also records the back edge (B, A), because the edge is added to the edge set
before the recursive call detects the cycle. -/
theorem C1_counterexample :
    ("B".toList, "A".toList) ∈
        (build_graph_from_test "A".toList
          (load_test_graph ["A: B".toList, "B: A".toList]) []).edges ∧
      ("B".toList, "A".toList) ≠ ("A".toList, "B".toList) := by
  decide

/-- C1 amended: for the static graph file with lines A: B and B: A, walking
from A with an empty filter returns visited nodes A and B, edge set
containing (A, B) and (B, A), and the single cycle [A, B, A]. -/
theorem C1_walk_two_cycle :
    build_graph_from_test "A".toList (load_test_graph ["A: B".toList, "B: A".toList]) [] =
      ⟨["A".toList, "B".toList], [],
        [("A".toList, "B".toList), ("B".toList, "A".toList)],
        [["A".toList, "B".toList, "A".toList]]⟩ := by
  decide

/-- C2: for the static graph with entries A: B and C: D and start A, the
reverse-dependency set main reports for target D is the nonempty set
containing C, while reverse reachability over the edge set produced by the
Walker from A is empty: the Reverse Index input is not the Walker output. -/
theorem C2_counterexample :
    mainReverseTest (load_test_graph ["A: B".toList, "C: D".toList]) [] "D".toList =
        ["C".toList] ∧
      find_reverse_dependencies "D".toList
          (build_graph_from_test "A".toList
            (load_test_graph ["A: B".toList, "C: D".toList]) []).edges
          (build_graph_from_test "A".toList
            (load_test_graph ["A: B".toList, "C: D".toList]) []).visited = [] ∧
      find_reverse_dependencies "D".toList
          (build_graph_from_test "A".toList
            (load_test_graph ["A: B".toList, "C: D".toList]) []).edges [] = [] ∧
      (["C".toList] : List Node) ≠ [] := by
  decide

/-- C2 amended: in test mode the reported reverse-dependency set is reverse
reachability over the full filtered edge set of the static graph file, with
all filtered-in nodes as extra nodes; that edge set is a superset of the edge
set produced by the Walker with the same filter. -/
theorem C2_reverse_input (g : Graph) (flt target start : Node) :
    mainReverseTest g flt target =
        find_reverse_dependencies target (collectAll g flt).2 (collectAll g flt).1 ∧
      ∀ e ∈ (build_graph_from_test start g flt).edges, e ∈ (collectAll g flt).2 :=
  ⟨rfl, walker_edges_sub_collectAll⟩

/-- C2 witness at a concrete graph and edge. -/
theorem C2_reverse_input_witness :
    ("A".toList, "B".toList) ∈
        (build_graph_from_test "A".toList
          (load_test_graph ["A: B".toList, "C: D".toList]) []).edges ∧
      ("A".toList, "B".toList) ∈
        (collectAll (load_test_graph ["A: B".toList, "C: D".toList]) []).2 :=
  ⟨by decide,
    (C2_reverse_input (load_test_graph ["A: B".toList, "C: D".toList]) [] "D".toList
      "A".toList).2 ("A".toList, "B".toList) (by decide)⟩

/-- C3: for every acyclic adjacency map and every start node, the walker run
with an empty filter visits exactly the nodes reachable from the start node by
dependency edges, and records no cycles. -/
theorem C3_walker_acyclic (g : Graph) (start : Node) (hacy : Acyclic g) :
    (∀ w, w ∈ (build_graph_from_test start g []).visited ↔ Reachable g start w) ∧
      (build_graph_from_test start g []).cycles = [] :=
  ⟨fun w => ⟨fun h => walk_visited_sound w h, fun h => walk_visited_complete w h⟩,
    walk_cycles_nil hacy⟩

/-- C3 witness on the acyclic one-edge map A -> B. -/
theorem C3_walker_acyclic_witness :
    Acyclic [("A".toList, ["B".toList])] ∧
      ((∀ w, w ∈ (build_graph_from_test "A".toList [("A".toList, ["B".toList])] []).visited ↔
          Reachable [("A".toList, ["B".toList])] "A".toList w) ∧
        (build_graph_from_test "A".toList [("A".toList, ["B".toList])] []).cycles = []) :=
  ⟨acyclic_single_edge,
    C3_walker_acyclic [("A".toList, ["B".toList])] "A".toList acyclic_single_edge⟩

/-- C4: every cycle the walker records starts and ends with the same node with
at least one node in between (it is the path-stack segment from the node's
first occurrence with the node appended again), and a dfs call on an
unfiltered node already on the path stack records exactly that segment,
appended to the cycle list, without recursing. -/
theorem C4_cycle_shape (g : Graph) (flt start : Node) :
    (∀ c ∈ (build_graph_from_test start g flt).cycles, ∃ x t, c = x :: (t ++ [x])) ∧
      (∀ (fuel : Nat) (u : Node) (st : WalkSt), filtered flt u = false →
        u ∈ st.pathStack →
        dfs g flt (fuel + 1) u st =
          { st with cycles :=
              st.cycles ++ [st.pathStack.drop (idxOf u st.pathStack) ++ [u]] }) := by
  constructor
  · intro c hc
    have hwf : CyclesWF (dfs g flt (walkFuel g start) start initSt) :=
      cyclesWF_dfs (walkFuel g start) start initSt
        (fun c' hc' => absurd hc' (by simp [initSt]))
    exact hwf c hc
  · intro fuel u st hf hp
    exact dfs_back_edge fuel u st hf hp

/-- C4 witness on the two-node cycle graph. -/
theorem C4_cycle_shape_witness :
    (["A".toList, "B".toList, "A".toList] ∈
        (build_graph_from_test "A".toList
          (load_test_graph ["A: B".toList, "B: A".toList]) []).cycles ∧
      ∃ x t, ["A".toList, "B".toList, "A".toList] = x :: (t ++ [x])) ∧
      (filtered [] "A".toList = false ∧ "A".toList ∈ ["A".toList, "B".toList] ∧
        dfs (load_test_graph ["A: B".toList, "B: A".toList]) [] 1 "A".toList
            ⟨["A".toList, "B".toList], ["A".toList, "B".toList], [], []⟩ =
          ⟨["A".toList, "B".toList], ["A".toList, "B".toList], [],
            [["A".toList, "B".toList, "A".toList]]⟩) := by
  refine ⟨⟨by decide, ?_⟩, by decide, by decide, ?_⟩
  · exact (C4_cycle_shape (load_test_graph ["A: B".toList, "B: A".toList]) [] "A".toList).1
      ["A".toList, "B".toList, "A".toList] (by decide)
  · have h := (C4_cycle_shape (load_test_graph ["A: B".toList, "B: A".toList]) []
      "A".toList).2 0 "A".toList
      ⟨["A".toList, "B".toList], ["A".toList, "B".toList], [], []⟩ (by decide) (by decide)
    rw [h]
    decide

/-- C5: with the empty filter substring, filtering is disabled even though the
empty string is a substring of every node name: the start node A is visited
although it contains the empty filter as a substring, refuting the claim for
every filter. -/
theorem C5_counterexample :
    "A".toList ∈ (build_graph_from_test "A".toList [] []).visited ∧
      ([] : List Char) <:+: "A".toList := by
  decide

/-- C5 amended: for every adjacency map, start node, and nonempty filter
substring, no visited node contains the filter as a substring and no recorded
edge has an endpoint containing it. -/
theorem C5_filter_excludes (g : Graph) (start flt : Node) (hne : flt ≠ []) :
    (∀ n ∈ (build_graph_from_test start g flt).visited, ¬ flt <:+: n) ∧
      (∀ e ∈ (build_graph_from_test start g flt).edges,
        ¬ flt <:+: e.1 ∧ ¬ flt <:+: e.2) := by
  have hclean : CleanSt flt (build_graph_from_test start g flt) := by
    unfold build_graph_from_test
    refine cleanSt_dfs hne (walkFuel g start) start initSt ?_
    exact ⟨fun n hn => absurd hn (by simp [initSt]), fun e he => absurd he (by simp [initSt])⟩
  constructor
  · intro n hn
    have := hclean.1 n hn
    unfold containsSub at this
    exact of_decide_eq_false this
  · intro e he
    have := hclean.2 e he
    unfold containsSub at this
    exact ⟨of_decide_eq_false this.1, of_decide_eq_false this.2⟩

/-- C5 witness on the filter example from the specification. -/
theorem C5_filter_excludes_witness :
    ("test".toList : List Char) ≠ [] ∧
      ¬ "test".toList <:+: "A".toList := by
  refine ⟨by decide, ?_⟩
  exact (C5_filter_excludes (load_test_graph ["A: test-lib, B".toList]) "A".toList
    "test".toList (by decide)).1 "A".toList (by decide)

/-- C6: for the self-loop edge (A, A), the edge is in the edge set but A is
not in the reverse-dependency result for target A, because the target is
discarded from the result: the round-trip claim fails for self-loops. -/
theorem C6_counterexample :
    ("A".toList, "A".toList) ∈ ([("A".toList, "A".toList)] : List Edge) ∧
      "A".toList ∉ find_reverse_dependencies "A".toList [("A".toList, "A".toList)] [] ∧
      find_reverse_dependencies "A".toList [("A".toList, "A".toList)] [] = [] := by
  decide

/-- C6 amended: for every edge set, if an edge (a, b) with a distinct from b
is present then a is in the reverse-dependency result for b; the result for a
target never contains the target itself; and a target with no incoming edges
yields the empty result rather than an error. -/
theorem C6_reverse_props (edges : List Edge) (extra : List Node) (a b target : Node) :
    ((a, b) ∈ edges → a ≠ b → a ∈ find_reverse_dependencies b edges extra) ∧
      target ∉ find_reverse_dependencies target edges extra ∧
      ((∀ x, (x, target) ∉ edges) → find_reverse_dependencies target edges extra = []) :=
  ⟨fun hab hne => mem_find_reverse hab hne, not_mem_find_reverse_self _ _ _,
    fun h => find_reverse_no_incoming h⟩

/-- C6 witness at a concrete edge set. -/
theorem C6_reverse_props_witness :
    (("A".toList, "B".toList) ∈ ([("A".toList, "B".toList)] : List Edge) ∧
        "A".toList ≠ "B".toList) ∧
      "A".toList ∈ find_reverse_dependencies "B".toList [("A".toList, "B".toList)] [] ∧
      find_reverse_dependencies "C".toList [("A".toList, "B".toList)] [] = [] := by
  refine ⟨⟨by decide, by decide⟩, ?_, ?_⟩
  · exact (C6_reverse_props [("A".toList, "B".toList)] [] "A".toList "B".toList
      "C".toList).1 (by decide) (by decide)
  · refine (C6_reverse_props [("A".toList, "B".toList)] [] "A".toList "B".toList
      "C".toList).2.2 ?_
    intro x hx
    rcases List.mem_singleton.mp hx with h
    have h2 : "C".toList = "B".toList := congrArg Prod.snd h
    exact absurd h2 (by decide)

/-- C7: the static graph loader ignores blank lines and lines starting with a
hash after stripping; a non-ignored line is split at the first colon when one
is present, else at the first arrow when one is present, else taken as a bare
node with no dependencies; dependency tokens are the maximal nonempty runs of
non-separator characters, the separators being commas and whitespace; and
looking up a node absent from the resulting map yields the empty set. -/
theorem C7_loader (lines : List (List Char)) (g : Graph) (raw l r : List Char)
    (u : Node) (cs : List Char) :
    load_test_graph lines = lines.foldl parseLine [] ∧
      (strip raw = [] → parseLine g raw = g) ∧
      (strip raw = '#' :: cs → parseLine g raw = g) ∧
      (strip raw ≠ [] → (strip raw).head? ≠ some '#' →
        splitOnceChar ':' (strip raw) = some (l, r) →
        parseLine g raw = setAssoc g (strip l) ((splitDelim (strip r)).dedup)) ∧
      (strip raw ≠ [] → (strip raw).head? ≠ some '#' →
        splitOnceChar ':' (strip raw) = none → splitOnceArrow (strip raw) = some (l, r) →
        parseLine g raw = setAssoc g (strip l) ((splitDelim (strip r)).dedup)) ∧
      (strip raw ≠ [] → (strip raw).head? ≠ some '#' →
        splitOnceChar ':' (strip raw) = none → splitOnceArrow (strip raw) = none →
        parseLine g raw = setAssoc g (strip (strip raw)) []) ∧
      (∀ t ∈ splitDelim raw, t ≠ [] ∧ ∀ c ∈ t, isDelim c = false) ∧
      (u ∉ g.map Prod.fst → getDeps g u = []) :=
  ⟨rfl, fun h => parseLine_blank h, fun h => parseLine_comment h,
    fun h1 h2 h3 => parseLine_colon h1 h2 h3,
    fun h1 h2 h3 h4 => parseLine_arrow h1 h2 h3 h4,
    fun h1 h2 h3 h4 => parseLine_bare h1 h2 h3 h4,
    splitDelim_tokens raw, fun h => getDeps_absent h⟩

/-- C7 witness on a concrete colon line and an absent node. -/
theorem C7_loader_witness :
    (strip "A: B, C".toList ≠ [] ∧
        splitOnceChar ':' (strip "A: B, C".toList) = some ("A".toList, " B, C".toList)) ∧
      parseLine [] "A: B, C".toList =
        setAssoc [] (strip "A".toList) ((splitDelim (strip " B, C".toList)).dedup) ∧
      getDeps [("A".toList, ["B".toList])] "Z".toList = [] := by
  refine ⟨⟨by decide, by decide⟩, ?_, ?_⟩
  · exact (C7_loader [] [] "A: B, C".toList "A".toList " B, C".toList [] []).2.2.2.1
      (by decide) (by decide) (by decide)
  · exact (C7_loader [] [("A".toList, ["B".toList])] "A: B, C".toList "A".toList
      " B, C".toList "Z".toList []).2.2.2.2.2.2.2 (by decide)

/-- C8: node declarations are claimed to be in lexicographic order of node
names, but the start node is declared first: with nodes A and B and start B,
the formatter declares B before A although B does not precede A. -/
theorem C8_counterexample :
    dotNodeSeq ["A".toList, "B".toList] "B".toList = ["B".toList, "A".toList] ∧
      strLe "B".toList "A".toList = false ∧
      generate_dot ["A".toList, "B".toList] [] "B".toList =
        [dotHeader1, dotHeader2, dotStartLine "B".toList, dotNodeLine "A".toList,
          dotFooter] := by
  decide

/-- C8 amended: the formatter output is the two header lines, one declaration
per node with the start node declared first and visually distinguished and the
remaining nodes in ascending lexicographic order, then one declaration per
edge in ascending lexicographic order of the pairs, then the closing line;
every node is declared exactly once and every edge exactly once. -/
theorem C8_dot_format (nodes : List Node) (edges : List Edge) (start : Node) :
    generate_dot nodes edges start =
        [dotHeader1, dotHeader2] ++
          (dotNodeSeq nodes start).map
            (fun n => if n = start then dotStartLine n else dotNodeLine n) ++
          (dotEdgeSeq edges).map dotEdgeLine ++ [dotFooter] ∧
      (∀ n ∈ nodes, countOcc n (dotNodeSeq nodes start) = 1) ∧
      (∀ e ∈ edges, countOcc e (dotEdgeSeq edges) = 1) ∧
      List.Sorted edgeLeP (dotEdgeSeq edges) ∧
      List.Sorted strLeP ((sortNodes nodes.dedup).filter (fun n => decide (n ≠ start))) ∧
      dotNodeSeq nodes start = (if start ∈ nodes then [start] else []) ++
        (sortNodes nodes.dedup).filter (fun n => decide (n ≠ start)) :=
  ⟨rfl, fun _ hn => count_dotNodeSeq hn, fun _ he => count_dotEdgeSeq he,
    sortEdges_sorted _, dotNodeTail_sorted _ _, rfl⟩

/-- C8 witness at a concrete node and edge set. -/
theorem C8_dot_format_witness :
    ("A".toList ∈ (["A".toList, "B".toList] : List Node) ∧
        countOcc "A".toList (dotNodeSeq ["A".toList, "B".toList] "B".toList) = 1) ∧
      (("A".toList, "B".toList) ∈ ([("A".toList, "B".toList)] : List Edge) ∧
        countOcc ("A".toList, "B".toList) (dotEdgeSeq [("A".toList, "B".toList)]) = 1) :=
  ⟨⟨by decide,
      (C8_dot_format ["A".toList, "B".toList] [("A".toList, "B".toList)]
        "B".toList).2.1 "A".toList (by decide)⟩,
    ⟨by decide,
      (C8_dot_format ["A".toList, "B".toList] [("A".toList, "B".toList)]
        "B".toList).2.2.1 ("A".toList, "B".toList) (by decide)⟩⟩

/-- C9: the walker and the reverse index are total: giving the walker any
extra fuel beyond the budget chosen by build_graph_from_test does not change
the result, the same holds for the reverse traversal inside
find_reverse_dependencies, and a node absent from the adjacency map yields the
empty dependency set rather than an error. -/
theorem C9_totality (g : Graph) (flt start target u : Node) (edges : List Edge)
    (extra : List Node) (k : Nat) :
    dfs g flt (walkFuel g start + k) start initSt = build_graph_from_test start g flt ∧
      (revDfs (buildRev edges extra) (revFuel (buildRev edges extra) + k) target []).filter
          (fun x => decide (x ≠ target)) =
        find_reverse_dependencies target edges extra ∧
      (g.lookup u = none → getDeps g u = []) :=
  ⟨walk_fuel_indep k, rev_fuel_indep edges extra target k,
    fun h => by unfold getDeps; rw [h]⟩

/-- C9 witness with concrete extra fuel and an absent node. -/
theorem C9_totality_witness :
    ((load_test_graph ["A: B".toList, "B: A".toList]).lookup "Z".toList = none) ∧
      getDeps (load_test_graph ["A: B".toList, "B: A".toList]) "Z".toList = [] ∧
      dfs (load_test_graph ["A: B".toList, "B: A".toList]) []
          (walkFuel (load_test_graph ["A: B".toList, "B: A".toList]) "A".toList + 7)
          "A".toList initSt =
        build_graph_from_test "A".toList
          (load_test_graph ["A: B".toList, "B: A".toList]) [] := by
  refine ⟨by decide, ?_, ?_⟩
  · exact (C9_totality (load_test_graph ["A: B".toList, "B: A".toList]) [] "A".toList
      "A".toList "Z".toList [] [] 7).2.2 (by decide)
  · exact (C9_totality (load_test_graph ["A: B".toList, "B: A".toList]) [] "A".toList
      "A".toList "Z".toList [] [] 7).1

/-- C10: for every adjacency map, start node, and filter, both endpoints of
every edge in the walker's returned edge set are members of the walker's
returned visited set. -/
theorem C10_edges_endpoints_visited (g : Graph) (start flt : Node) :
    ∀ e ∈ (build_graph_from_test start g flt).edges,
      e.1 ∈ (build_graph_from_test start g flt).visited ∧
        e.2 ∈ (build_graph_from_test start g flt).visited :=
  walk_edges_endpoints

/-- C10 witness at a concrete edge. -/
theorem C10_edges_endpoints_visited_witness :
    ("A".toList, "B".toList) ∈
        (build_graph_from_test "A".toList
          (load_test_graph ["A: B".toList, "B: A".toList]) []).edges ∧
      ("A".toList ∈
          (build_graph_from_test "A".toList
            (load_test_graph ["A: B".toList, "B: A".toList]) []).visited ∧
        "B".toList ∈
          (build_graph_from_test "A".toList
            (load_test_graph ["A: B".toList, "B: A".toList]) []).visited) :=
  ⟨by decide,
    C10_edges_endpoints_visited (load_test_graph ["A: B".toList, "B: A".toList])
      "A".toList [] ("A".toList, "B".toList) (by decide)⟩

end Claims

end GraphWiz
